import Mathlib

/-!
Verification of the hierarchical switch-topology core implemented in
src/src/plugins/topology/tree/topology_tree.c.

The switch table is shallowly embedded: a switch record is a Lean structure,
node bitmaps (bitstr_t over node indices) are finite sets of naturals, the
switch table is a list indexed by position, and each plugin entry point is a
Lean function translated from the C source.  External collaborators that are
not part of this repository's src/ tree (the bitstring utility, the hostlist
renderer, the node directory, the treewidth splitter, switch_record lookup
and append) are modelled from the spec, with doc comments saying so.
-/

set_option autoImplicit false

/-- One entry of the switch table (switch_record_t).  `parent` is `none` for
SWITCH_NO_PARENT; `switch_index` lists the direct children in declared order
(num_switches is its length); `switch_desc_index` lists all transitive
descendant switches (num_desc_switches is its length); `node_bitmap` is the
set of node indices reachable through this switch; `nodes` and `switches`
are the denormalized rendered strings. -/
structure SwitchRecord where
  name : String
  level : Nat
  parent : Option Nat
  switch_index : List Nat
  switch_desc_index : List Nat
  node_bitmap : Finset Nat
  nodes : String
  switches : String
  link_speed : Nat
deriving DecidableEq

/-- Default record used for out-of-range table reads (never reached on the
index ranges the code touches). -/
def dfltSwitch : SwitchRecord :=
  { name := ("")
    level := 0
    parent := none
    switch_index := []
    switch_desc_index := []
    node_bitmap := ∅
    nodes := ("")
    switches := ("")
    link_speed := 0 }

/-- The plugin context (tree_context_t): the switch table, the maximum level
(switch_levels) and, standing in for the external node directory, the list
of node names indexed by node index. -/
structure tree_context where
  switch_table : List SwitchRecord
  switch_levels : Nat
  node_names : List String
deriving DecidableEq

/-- switch_count of a context is the length of its switch table. -/
def tree_context.switch_count (ctx : tree_context) : Nat :=
  ctx.switch_table.length

/-- Read entry `i` of a switch table. -/
def swt (tbl : List SwitchRecord) (i : Nat) : SwitchRecord :=
  tbl.getD i dfltSwitch

/-- The elements of a finite set of naturals in ascending order (the order
in which the C bitstring utility iterates set bits). -/
def finset_asc (b : Finset Nat) : List Nat :=
  (List.range (b.sup id + 1)).filter (fun i => i ∈ b)

/-- Modelled from the spec: the external hostlist utility renders a node
bitmap as a hostlist string (§6); we render the node names of the set bits in
ascending index order, joined by commas.  This stands in for
bitmap2node_name. -/
def bitmap2node_name (names : List String) (b : Finset Nat) : String :=
  String.intercalate (",") ((finset_asc b).map (fun i => names.getD i ("")))

/-- Modelled from the spec: canonical rendering of a direct-child name list
(the `switches` string of §3, invariant 6). -/
def switch_names_string (tbl : List SwitchRecord) (children : List Nat) : String :=
  String.intercalate (",") (children.map (fun k => (swt tbl k).name))

/-- Modelled from the spec: switch_record_update_block_config refreshes the
denormalized child-name rendering of a record (§4.3). -/
def switch_record_update_block_config (tbl : List SwitchRecord) (r : SwitchRecord) :
    SwitchRecord :=
  { r with switches := switch_names_string tbl r.switch_index }

/-! ## Expander (topology_p_whole_topo) -/

/-- Loop body of topology_p_whole_topo for switch `i`: leaves whose bitmap
overlaps the mask OR their full bitmap into the mask in place. -/
def whole_topo_step (tbl : List SwitchRecord) (node_mask : Finset Nat) (i : Nat) :
    Finset Nat :=
  if (swt tbl i).level ≠ 0 then node_mask
  else if ((swt tbl i).node_bitmap ∩ node_mask) ≠ ∅ then
    node_mask ∪ (swt tbl i).node_bitmap
  else node_mask

/-- topology_p_whole_topo: iterate over the whole switch table in index
order, expanding the mask at every overlapping leaf. -/
def topology_p_whole_topo (ctx : tree_context) (node_mask : Finset Nat) : Finset Nat :=
  (List.range ctx.switch_table.length).foldl (whole_topo_step ctx.switch_table) node_mask

/-! ## Addresser (topology_p_get_node_addr) -/

/-- Modelled from the spec: find_node_record resolves a node name to its
index through the external node directory (§6). -/
def find_node_record (names : List String) (node_name : String) : Option Nat :=
  names.findIdx? (fun n => n == node_name)

/-- The switch names collected at one level for a node, rendered: the inner
loop of topology_p_get_node_addr for level `j`. -/
def addr_level_string (tbl : List SwitchRecord) (inx j : Nat) : String :=
  String.intercalate (",")
    ((tbl.filter (fun r => r.level = j ∧ inx ∈ r.node_bitmap)).map (fun r => r.name))

/-- topology_p_get_node_addr: empty forest returns the bare name with
pattern "node"; otherwise an unresolvable name is an error (`none`), and a
resolved node gets one dotted component per level from the maximum level
down to 0. -/
def topology_p_get_node_addr (ctx : tree_context) (node_name : String) :
    Option (String × String) :=
  if ctx.switch_table.length = 0 then some (node_name, ("node"))
  else
    match find_node_record ctx.node_names node_name with
    | none => none
    | some inx =>
      let s_max_level := ctx.switch_table.foldl (fun m r => max m r.level) 0
      let lvls := (List.range (s_max_level + 1)).reverse
      let addr := lvls.foldl
        (fun acc j => acc ++ addr_level_string ctx.switch_table inx j ++ (".")) ("")
      let patt := lvls.foldl (fun acc _ => acc ++ ("switch.")) ("")
      some (addr ++ node_name, patt ++ ("node"))

/-! ## Snapshot codec (topology_p_topology_pack / unpack)

The packed buffer is a byte list.  pack16/pack32/packstr and their safe_
counterparts are the external packing primitives, modelled from the spec
(§4.8): fixed-width big-endian integers, strings as a 32-bit length followed
by the raw bytes, and every safe_unpack fails on a short buffer. -/

/-- One record of the flat snapshot (topo_info_t): level is a u16,
link_speed a u32, and the three strings are byte strings. -/
structure topoinfo_switch where
  level : Nat
  link_speed : Nat
  name : List Nat
  nodes : List Nat
  switches : List Nat
deriving DecidableEq

/-- The snapshot (topoinfo_tree_t). -/
structure topoinfo_tree where
  record_count : Nat
  topo_array : List topoinfo_switch
deriving DecidableEq

/-- Modelled from the spec: pack16 appends a big-endian 16-bit value. -/
def pack16 (v : Nat) : List Nat :=
  [v / 256 % 256, v % 256]

/-- Modelled from the spec: pack32 appends a big-endian 32-bit value. -/
def pack32 (v : Nat) : List Nat :=
  [v / 16777216 % 256, v / 65536 % 256, v / 256 % 256, v % 256]

/-- Modelled from the spec: packstr appends a 32-bit byte length followed by
the string bytes. -/
def packstr (s : List Nat) : List Nat :=
  pack32 s.length ++ s

/-- Modelled from the spec: safe_unpack16 reads a big-endian 16-bit value,
failing on a short buffer. -/
def safe_unpack16 : List Nat → Option (Nat × List Nat)
  | a :: b :: rest => some (a * 256 + b, rest)
  | _ => none

/-- Modelled from the spec: safe_unpack32 reads a big-endian 32-bit value,
failing on a short buffer. -/
def safe_unpack32 : List Nat → Option (Nat × List Nat)
  | a :: b :: c :: d :: rest => some (((a * 256 + b) * 256 + c) * 256 + d, rest)
  | _ => none

/-- Modelled from the spec: safe_unpackstr reads a 32-bit length and then
that many bytes, failing on a short buffer (length mismatch). -/
def safe_unpackstr (buf : List Nat) : Option (List Nat × List Nat) :=
  match safe_unpack32 buf with
  | none => none
  | some (n, rest) =>
    if rest.length < n then none else some (rest.take n, rest.drop n)

/-- Packing of one snapshot record, in the field order of the C loop. -/
def pack_topo_record (r : topoinfo_switch) : List Nat :=
  pack16 r.level ++ pack32 r.link_speed ++ packstr r.name ++ packstr r.nodes ++
    packstr r.switches

/-- topology_p_topology_pack: the record count followed by every record. -/
def topology_p_topology_pack (t : topoinfo_tree) : List Nat :=
  pack32 t.record_count ++ (t.topo_array.map pack_topo_record).flatten

/-- The record-reading loop of topology_p_topology_unpack: read `n` records,
failing as soon as any field read fails. -/
def unpack_topo_records : Nat → List Nat → Option (List topoinfo_switch × List Nat)
  | 0, buf => some ([], buf)
  | n + 1, buf =>
    match safe_unpack16 buf with
    | none => none
    | some (lv, b1) =>
      match safe_unpack32 b1 with
      | none => none
      | some (ls, b2) =>
        match safe_unpackstr b2 with
        | none => none
        | some (nm, b3) =>
          match safe_unpackstr b3 with
          | none => none
          | some (nd, b4) =>
            match safe_unpackstr b4 with
            | none => none
            | some (sw, b5) =>
              match unpack_topo_records n b5 with
              | none => none
              | some (rest, b6) =>
                some ({ level := lv, link_speed := ls, name := nm, nodes := nd,
                        switches := sw } :: rest, b6)

/-- topology_p_topology_unpack: on any failure the partially built structure
is discarded and `none` is returned (the C frees it and NULLs the output
pointer). -/
def topology_p_topology_unpack (buf : List Nat) : Option topoinfo_tree :=
  match safe_unpack32 buf with
  | none => none
  | some (cnt, b1) =>
    match unpack_topo_records cnt b1 with
    | none => none
    | some (arr, _) => some { record_count := cnt, topo_array := arr }

/-- Well-formedness of a snapshot: the count matches the array and every
field fits its wire width (u16 level, u32 link_speed and lengths, byte
strings). -/
def topoinfo_wf (t : topoinfo_tree) : Prop :=
  t.record_count = t.topo_array.length ∧ t.record_count < 4294967296 ∧
    ∀ r ∈ t.topo_array, r.level < 65536 ∧ r.link_speed < 4294967296 ∧
      r.name.length < 4294967296 ∧ r.nodes.length < 4294967296 ∧
      r.switches.length < 4294967296

/-! ## Mutator (topology_p_add_rm_node) -/

/-- Splitting a character list at colons. -/
def split_colon_chars : List Char → List Char → List String
  | [], acc => [String.mk acc.reverse]
  | c :: rest, acc =>
    if c = (':') then String.mk acc.reverse :: split_colon_chars rest []
    else split_colon_chars rest (c :: acc)

/-- Tokenization of the unit path: strtok_r with ":" skips empty tokens. -/
def strtok_colon (s : String) : List String :=
  (split_colon_chars s.data []).filter (fun t => t ≠ (""))

/-- Modelled from the spec: switch_record_get_switch_inx looks a switch name
up in the table (first match), returning its index. -/
def switch_record_get_switch_inx (tok : String) (tbl : List SwitchRecord) : Option Nat :=
  tbl.findIdx? (fun r => r.name == tok)

/-- Append `child` to the descendant list of every switch on the parent
chain starting at the given index (fuel-bounded parent walk). -/
def append_desc (child : Nat) : Nat → List SwitchRecord → Option Nat → List SwitchRecord
  | 0, tbl, _ => tbl
  | fuel + 1, tbl, o =>
    match o with
    | none => tbl
    | some a =>
      let r := swt tbl a
      append_desc child fuel
        (tbl.set a { r with switch_desc_index := r.switch_desc_index ++ [child] })
        r.parent

/-- Modelled from the spec: switch_record_add_switch appends a new switch
named `tok` as a child of `parent_inx` (§4.3), one level below its parent,
with no children and an empty node bitmap; the parent's child list and every
ancestor's descendant list gain the fresh index.  Returns the new index. -/
def new_switch_record (tok : String) (parent_inx plevel : Nat) : SwitchRecord :=
  { name := tok, level := plevel - 1, parent := some parent_inx,
    switch_index := [], switch_desc_index := [], node_bitmap := ∅,
    nodes := (""), switches := (""), link_speed := 0 }

def switch_record_add_switch (ctx : tree_context) (tok : String) (parent_inx : Nat) :
    tree_context × Nat :=
  let n := ctx.switch_table.length
  let pr := swt ctx.switch_table parent_inx
  let tbl1 := ctx.switch_table ++ [new_switch_record tok parent_inx pr.level]
  let tbl2 := tbl1.set parent_inx { pr with switch_index := pr.switch_index ++ [n] }
  let tbl3 := append_desc n (ctx.switch_levels + 1) tbl2 (some parent_inx)
  ({ ctx with switch_table := tbl3 }, n)

/-- The token loop of topology_p_add_rm_node: resolve each path segment,
appending unknown segments under the previously resolved switch; an unknown
first segment (no add-target context) is an error (`none`). -/
def walk_unit_path : List String → Option Nat → tree_context → Option (tree_context × Option Nat)
  | [], add_inx, ctx => some (ctx, add_inx)
  | tok :: rest, add_inx, ctx =>
    match switch_record_get_switch_inx tok ctx.switch_table with
    | some inx => walk_unit_path rest (some inx) ctx
    | none =>
      match add_inx with
      | none => none
      | some p =>
        let res := switch_record_add_switch ctx tok p
        walk_unit_path rest (some res.2) res.1

/-- The per-switch update of the upward walk: set or clear the node's bit,
regenerate the nodes string, refresh the block config. -/
def walk_upd (node_inx : Nat) (doAdd : Bool) (names : List String)
    (tbl : List SwitchRecord) (sw : Nat) : SwitchRecord :=
  let r := swt tbl sw
  let r1 := if doAdd then { r with node_bitmap := insert node_inx r.node_bitmap }
            else { r with node_bitmap := r.node_bitmap.erase node_inx }
  switch_record_update_block_config tbl
    { r1 with nodes := bitmap2node_name names r1.node_bitmap }

/-- The upward propagation loop of topology_p_add_rm_node: from switch `sw`
walk the parent chain, stopping at a switch already marked `added` in this
call; at every switch visited set (add) or clear (remove) the node's bit,
regenerate the `nodes` string and refresh the block config; in the add case
mark the switch as visited. -/
def add_rm_walk (node_inx : Nat) (doAdd : Bool) (names : List String) :
    Nat → Nat → List SwitchRecord → Finset Nat → List SwitchRecord × Finset Nat
  | 0, _, tbl, added => (tbl, added)
  | fuel + 1, sw, tbl, added =>
    if sw ∈ added then (tbl, added)
    else
      let added1 := if doAdd then insert sw added else added
      let tbl1 := tbl.set sw (walk_upd node_inx doAdd names tbl sw)
      match (swt tbl sw).parent with
      | none => (tbl1, added1)
      | some p => add_rm_walk node_inx doAdd names fuel p tbl1 added1

/-- The leaf scan of topology_p_add_rm_node over the switch indices `idxs`:
non-leaves are skipped; a leaf whose current membership of the node already
matches the add target is skipped; otherwise the upward walk runs from it. -/
def add_rm_loop_go (node_inx : Nat) (add_inx : Option Nat) (names : List String)
    (fuel : Nat) :
    List Nat → List SwitchRecord → Finset Nat → List SwitchRecord × Finset Nat
  | [], tbl, added => (tbl, added)
  | i :: rest, tbl, added =>
    if (swt tbl i).level ≠ 0 then
      add_rm_loop_go node_inx add_inx names fuel rest tbl added
    else
      let in_switch := decide (node_inx ∈ (swt tbl i).node_bitmap)
      let add := decide (add_inx = some i)
      if (!in_switch && !add) || (in_switch && add) then
        add_rm_loop_go node_inx add_inx names fuel rest tbl added
      else
        let res := add_rm_walk node_inx add names fuel i tbl added
        add_rm_loop_go node_inx add_inx names fuel rest res.1 res.2

/-- topology_p_add_rm_node: resolve the optional unit path, require the
resolved tail to be a leaf, then scan all leaves propagating the membership
change upward.  Returns (SLURM_SUCCESS as `true`, resulting context); on
error the context reached so far is returned (switches appended while
resolving the path are retained). -/
def topology_p_add_rm_node (node_inx : Nat) (unit : Option String)
    (ctx : tree_context) : Bool × tree_context :=
  match walk_unit_path
      (match unit with | none => [] | some u => strtok_colon u) none ctx with
  | none => (false, ctx)
  | some (ctx1, add_inx) =>
    match add_inx with
    | some a =>
      if (swt ctx1.switch_table a).level ≠ 0 then (false, ctx1)
      else
        let res := add_rm_loop_go node_inx (some a) ctx1.node_names
          (ctx1.switch_levels + 1) (List.range ctx1.switch_table.length)
          ctx1.switch_table ∅
        (true, { ctx1 with switch_table := res.1 })
    | none =>
      let res := add_rm_loop_go node_inx none ctx1.node_names
        (ctx1.switch_levels + 1) (List.range ctx1.switch_table.length)
        ctx1.switch_table ∅
      (true, { ctx1 with switch_table := res.1 })

/-! ## Router (topology_p_split_hostlist) -/

/-- Fuel-bounded ceiling logarithm: repeatedly take the ceiling division by
the base until at most one remains. -/
def clog_aux (b : Nat) : Nat → Nat → Nat
  | 0, _ => 0
  | fuel + 1, m => if m ≤ 1 then 0 else clog_aux b fuel ((m + b - 1) / b) + 1

/-- Exact ceiling logarithm: `clog_tw tw m` is the real-arithmetic value of
the C expression ceil(log2(m)/log2(tw)), i.e. ⌈log_tw m⌉, the least `d` with
`tw^d ≥ m`, for `m ≥ 1` and `tw ≥ 2`. -/
def clog_tw (tree_width m : Nat) : Nat :=
  clog_aux tree_width m m

/-- The standard forward-tree depth of a message to `cnt` nodes:
ceil(log_tw(cnt*(tw-1)+1)). -/
def leaf_tree_depth (tree_width cnt : Nat) : Nat :=
  clog_tw tree_width (cnt * (tree_width - 1) + 1)

/-- Chunking helper used to model the external treewidth splitter. -/
def chunk_list (w : Nat) : Nat → List Nat → List (List Nat)
  | 0, _ => []
  | fuel + 1, l =>
    match l with
    | [] => []
    | a :: t => (a :: t).take w :: chunk_list w fuel ((a :: t).drop w)

/-- Modelled from the spec: the external treewidth splitter splits a flat
hostlist into tree_width-arity sub-lists ignoring topology (§6) and returns
the standard forward-tree depth for the whole list (§8, scenario 1). -/
def common_topo_split_hostlist_treewidth (hl : Finset Nat) (tree_width : Nat) :
    List (Finset Nat) × Nat :=
  ((chunk_list tree_width (finset_asc hl).length (finset_asc hl)).map
      List.toFinset,
    leaf_tree_depth tree_width hl.card)

/-- Seed step (step 3) for switch `j`: a leaf overlapping the destination
set is marked and the running max forward-tree depth is updated. -/
def seed_step (tbl : List SwitchRecord) (nodes_bitmap : Finset Nat)
    (tree_width : Nat) (p : Finset Nat × Nat) (j : Nat) : Finset Nat × Nat :=
  let cnt := ((swt tbl j).node_bitmap ∩ nodes_bitmap).card
  if (swt tbl j).level = 0 ∧ cnt ≠ 0 then
    (insert j p.1, max p.2 (leaf_tree_depth tree_width cnt))
  else p

/-- The seed loop over the whole switch table. -/
def router_seed (ctx : tree_context) (nodes_bitmap : Finset Nat)
    (tree_width : Nat) : Finset Nat × Nat :=
  (List.range ctx.switch_table.length).foldl
    (seed_step ctx.switch_table nodes_bitmap tree_width) (∅, 0)

/-- State of the upward-merge loop: the marked-switch bitmap, the running
count of marked switches, the uppermost merge level, and (as ghost
instrumentation used only by the statements) the levels at which merges
occurred. -/
structure SplitState where
  switch_bitmap : Finset Nat
  scount : Nat
  upper : Nat
  merges : List Nat
deriving DecidableEq

/-- Descendant scan for one candidate ancestor: count its marked descendant
switches, clearing every one after the first and remembering the first. -/
def desc_scan : List Nat → Finset Nat → Option Nat → Nat →
    Finset Nat × Option Nat × Nat
  | [], s, fc, cnt => (s, fc, cnt)
  | k :: rest, s, fc, cnt =>
    if k ∈ s then
      if cnt + 1 > 1 then desc_scan rest (s.erase k) fc (cnt + 1)
      else desc_scan rest s (some k) (cnt + 1)
    else desc_scan rest s fc cnt

/-- Merge step at switch `j` of level `i` (step 4): if two or more marked
switches lie among its descendants they are all cleared and `j` is marked,
and the uppermost merge level is updated. -/
def merge_at_switch (tbl : List SwitchRecord) (i j : Nat) (st : SplitState) :
    SplitState :=
  let scan := desc_scan (swt tbl j).switch_desc_index st.switch_bitmap none 0
  if scan.2.2 > 1 then
    match scan.2.1 with
    | some f =>
      { switch_bitmap := insert j (scan.1.erase f)
        scount := st.scount - (scan.2.2 - 1)
        upper := max st.upper i
        merges := i :: st.merges }
    | none => { st with switch_bitmap := scan.1 }
  else { st with switch_bitmap := scan.1 }

/-- The inner loop of step 4 at level `i`, with the early break once fewer
than two marked switches remain. -/
def merge_level_loop (tbl : List SwitchRecord) (i : Nat) :
    List Nat → SplitState → SplitState
  | [], st => st
  | j :: rest, st =>
    if st.scount < 2 then st
    else if (swt tbl j).level = i then
      merge_level_loop tbl i rest (merge_at_switch tbl i j st)
    else merge_level_loop tbl i rest st

/-- The merged state after steps 3 and 4: levels 1..switch_levels are
processed in order, stopping once fewer than two marked switches remain. -/
def router_merged (ctx : tree_context) (nodes_bitmap : Finset Nat)
    (tree_width : Nat) : SplitState :=
  let seed := router_seed ctx nodes_bitmap tree_width
  (List.range' 1 ctx.switch_levels).foldl
    (fun st i =>
      if st.scount < 2 then st
      else merge_level_loop ctx.switch_table i
        (List.range ctx.switch_table.length) st)
    { switch_bitmap := seed.1, scount := seed.1.card, upper := 0, merges := [] }

/-- bit_ffs: the least marked switch, if any. -/
def s_first? (s : Finset Nat) : Option Nat :=
  if h : s.Nonempty then some (s.min' h) else none

/-- The degenerate single-leaf test of step 6: exactly one switch remains,
it is a leaf, and the whole destination set lies within it. -/
def router_degenerate (ctx : tree_context) (nodes_bitmap : Finset Nat)
    (tree_width : Nat) : Bool :=
  let st := router_merged ctx nodes_bitmap tree_width
  match s_first? st.switch_bitmap with
  | none => false
  | some f =>
    decide (st.scount = 1) && decide ((swt ctx.switch_table f).level = 0) &&
      decide (nodes_bitmap ⊆ (swt ctx.switch_table f).node_bitmap)

/-- Child scan of _subtree_split_hostlist: each direct child's overlap with
the remaining message list is emitted and removed, stopping early once the
whole message list has been consumed within this subtree. -/
def subtree_split_children (tbl : List SwitchRecord) (msg_count : Nat) :
    List Nat → Finset Nat → List (Finset Nat) → Nat →
      Finset Nat × List (Finset Nat) × Nat
  | [], d, out, lst => (d, out, lst)
  | k :: rest, d, out, lst =>
    let fwd := (swt tbl k).node_bitmap ∩ d
    if fwd.card = 0 then subtree_split_children tbl msg_count rest d out lst
    else
      let d1 := d \ fwd
      let out1 := out ++ [fwd]
      let lst1 := lst + fwd.card
      if lst1 = msg_count then (d1, out1, lst1)
      else subtree_split_children tbl msg_count rest d1 out1 lst1

/-- _subtree_split_hostlist: scan the children of `parent`; returns the
remaining message bitmap, the extended sub-list array and the updated
running message count. -/
def subtree_split_hostlist (tbl : List SwitchRecord) (parent : Nat)
    (nodes_bitmap : Finset Nat) (msg_count : Nat) (out : List (Finset Nat)) :
    Finset Nat × List (Finset Nat) × Nat :=
  let res := subtree_split_children tbl msg_count (swt tbl parent).switch_index
    nodes_bitmap out 0
  (res.1, res.2.1, msg_count - res.2.2)

/-- The switch loop of step 7: every remaining marked switch, in ascending
index order, splits off its subtree. -/
def split_marked_loop (tbl : List SwitchRecord) (s : Finset Nat) :
    List Nat → Finset Nat → Nat → List (Finset Nat) →
      Finset Nat × List (Finset Nat) × Nat
  | [], d, msg, out => (d, out, msg)
  | j :: rest, d, msg, out =>
    if j ∈ s then
      let res := subtree_split_hostlist tbl j d msg out
      split_marked_loop tbl s rest res.1 res.2.2 res.2.1
    else split_marked_loop tbl s rest d msg out

/-- Step 8: every node still in the message list becomes its own singleton
sub-list, in ascending index order. -/
def orphan_lists (d : Finset Nat) : List (Finset Nat) :=
  (finset_asc d).map (fun j => {j})

/-- topology_p_split_hostlist.  Hostlists are modelled as node-index sets;
`route_tree` is the external common_topo_route_tree() flag of step 1.
Returns the emitted sub-list array and the returned depth. -/
def topology_p_split_hostlist (route_tree : Bool) (ctx : tree_context)
    (hl : Finset Nat) (tree_width : Nat) : List (Finset Nat) × Nat :=
  if !route_tree then common_topo_split_hostlist_treewidth hl tree_width
  else
    let tbl := ctx.switch_table
    let seed := router_seed ctx hl tree_width
    let st := router_merged ctx hl tree_width
    let depth := seed.2 + st.upper
    if router_degenerate ctx hl tree_width then
      common_topo_split_hostlist_treewidth hl tree_width
    else
      let res := split_marked_loop tbl st.switch_bitmap (List.range tbl.length)
        hl hl.card []
      (res.2.1 ++ orphan_lists res.1, depth)

/-! ## The §3 invariants

The claims quantify over forests satisfying the §3 invariants.  We
formalize them over the arena representation.  The hierarchy being
well-founded is expressed by levels strictly increasing along parent links
(leaves are level 0 and a parent is strictly higher), which also makes the
parent walks of the C code terminate. -/

/-- The structural fields of a record (everything except the node bitmap
and the denormalized strings). -/
def structOf (r : SwitchRecord) :
    String × Nat × Option Nat × List Nat × List Nat × Nat :=
  (r.name, r.level, r.parent, r.switch_index, r.switch_desc_index, r.link_speed)

/-- The parent chain from switch `sw` upward, stopping (exclusively) at the
first switch in `stopset`, bounded by `fuel`. -/
def anc_chain (tbl : List SwitchRecord) (stopset : Finset Nat) :
    Nat → Nat → List Nat
  | 0, _ => []
  | fuel + 1, sw =>
    if sw ∈ stopset then []
    else
      match (swt tbl sw).parent with
      | none => [sw]
      | some p => sw :: anc_chain tbl stopset fuel p

/-- Whether the fuel-bounded parent chain from `i` reaches a root. -/
def chain_completeB (tbl : List SwitchRecord) (fuel i : Nat) : Bool :=
  match (anc_chain tbl ∅ fuel i).getLast? with
  | some r => (swt tbl r).parent = none
  | none => false

/-- §3 index sanity: parent, child and descendant indices are in range. -/
def inv_indices (ctx : tree_context) : Prop :=
  ∀ i < ctx.switch_count,
    (∀ p ∈ (swt ctx.switch_table i).parent, p < ctx.switch_count) ∧
    (∀ c ∈ (swt ctx.switch_table i).switch_index, c < ctx.switch_count) ∧
    (∀ d ∈ (swt ctx.switch_table i).switch_desc_index, d < ctx.switch_count)

/-- §3: `children` and `parent` are mutually consistent back-references. -/
def inv_parent_child (ctx : tree_context) : Prop :=
  ∀ i < ctx.switch_count, ∀ c < ctx.switch_count,
    (c ∈ (swt ctx.switch_table i).switch_index ↔
      (swt ctx.switch_table c).parent = some i)

/-- §3: a child sits strictly below its parent (leaves are level 0; the
hierarchy is well-founded). -/
def inv_strict (ctx : tree_context) : Prop :=
  ∀ i < ctx.switch_count, ∀ p ∈ (swt ctx.switch_table i).parent,
    (swt ctx.switch_table i).level < (swt ctx.switch_table p).level

/-- §3 invariant 5 (one half): every level is at most switch_levels. -/
def inv_level_le (ctx : tree_context) : Prop :=
  ∀ i < ctx.switch_count,
    (swt ctx.switch_table i).level ≤ ctx.switch_levels

/-- §3 invariant 1, arena form: every switch's parent walk reaches a root
(its tree has a unique root, the end of that walk). -/
def inv_root (ctx : tree_context) : Prop :=
  ∀ i < ctx.switch_count,
    chain_completeB ctx.switch_table (ctx.switch_levels + 1) i = true

/-- §3 invariant 3: `descendants` lists exactly the strictly reachable
switches: `j` is a descendant of `i` iff `i` occurs on `j`'s parent walk. -/
def inv_desc (ctx : tree_context) : Prop :=
  ∀ i < ctx.switch_count, ∀ j < ctx.switch_count,
    (j ∈ (swt ctx.switch_table i).switch_desc_index ↔
      (j ≠ i ∧
        i ∈ anc_chain ctx.switch_table ∅ (ctx.switch_levels + 1) j))

/-- §3 invariant 2: a non-leaf's bitmap is the union of its children's. -/
def inv_union (ctx : tree_context) : Prop :=
  ∀ i < ctx.switch_count, (swt ctx.switch_table i).level ≠ 0 →
    (swt ctx.switch_table i).node_bitmap =
      ((swt ctx.switch_table i).switch_index.map
        (fun c => (swt ctx.switch_table c).node_bitmap)).foldr (· ∪ ·) ∅

/-- §3 invariant 4: a node lives under at most one leaf (leaf bitmaps are
pairwise disjoint; together with invariant 2 an attached node is in exactly
one leaf). -/
def inv_one_leaf (ctx : tree_context) : Prop :=
  ∀ i < ctx.switch_count, ∀ j < ctx.switch_count,
    (i ≠ j ∧ (swt ctx.switch_table i).level = 0 ∧
        (swt ctx.switch_table j).level = 0) →
      (swt ctx.switch_table i).node_bitmap ∩ (swt ctx.switch_table j).node_bitmap = ∅

/-- §3 invariant 5: switch_levels is the maximum level of the table. -/
def inv_levels (ctx : tree_context) : Prop :=
  ctx.switch_levels = ctx.switch_table.foldl (fun m r => max m r.level) 0

/-- §3 invariant 6: the `nodes` and `switches` strings are the canonical
renderings of the bitmap and the child names. -/
def inv_strings (ctx : tree_context) : Prop :=
  ∀ i < ctx.switch_count,
    (swt ctx.switch_table i).nodes =
      bitmap2node_name ctx.node_names (swt ctx.switch_table i).node_bitmap ∧
    (swt ctx.switch_table i).switches =
      switch_names_string ctx.switch_table (swt ctx.switch_table i).switch_index

/-- §3: `children` is empty exactly at the leaves. -/
def inv_leaf_children (ctx : tree_context) : Prop :=
  ∀ i < ctx.switch_count,
    ((swt ctx.switch_table i).level = 0 ↔
      (swt ctx.switch_table i).switch_index = [])

/-- The §3 invariants of a forest, as required after the Validator and
after every Mutator call. -/
def Invariants (ctx : tree_context) : Prop :=
  inv_indices ctx ∧ inv_parent_child ctx ∧ inv_strict ctx ∧ inv_level_le ctx ∧
    inv_root ctx ∧ inv_desc ctx ∧ inv_union ctx ∧ inv_one_leaf ctx ∧
    inv_levels ctx ∧ inv_strings ctx ∧ inv_leaf_children ctx

instance (ctx : tree_context) : Decidable (inv_indices ctx) := by
  unfold inv_indices; infer_instance

instance (ctx : tree_context) : Decidable (inv_parent_child ctx) := by
  unfold inv_parent_child; infer_instance

instance (ctx : tree_context) : Decidable (inv_strict ctx) := by
  unfold inv_strict; infer_instance

instance (ctx : tree_context) : Decidable (inv_level_le ctx) := by
  unfold inv_level_le; infer_instance

instance (ctx : tree_context) : Decidable (inv_root ctx) := by
  unfold inv_root; infer_instance

instance (ctx : tree_context) : Decidable (inv_desc ctx) := by
  unfold inv_desc; infer_instance

instance (ctx : tree_context) : Decidable (inv_union ctx) := by
  unfold inv_union; infer_instance

instance (ctx : tree_context) : Decidable (inv_one_leaf ctx) := by
  unfold inv_one_leaf; infer_instance

instance (ctx : tree_context) : Decidable (inv_levels ctx) := by
  unfold inv_levels; infer_instance

instance (ctx : tree_context) : Decidable (inv_strings ctx) := by
  unfold inv_strings; infer_instance

instance (ctx : tree_context) : Decidable (inv_leaf_children ctx) := by
  unfold inv_leaf_children; infer_instance

instance (ctx : tree_context) : Decidable (Invariants ctx) := by
  unfold Invariants; infer_instance

/-! ## A concrete forest (scenario 2 of §8), used by the witnesses:
`leaf0 = {n0,n1}` and `leaf1 = {n2,n3}`, both under `spine0`. -/

/-- leaf0 of the scenario forest. -/
def leaf0Rec : SwitchRecord :=
  { name := ("leaf0"), level := 0, parent := some 2, switch_index := [],
    switch_desc_index := [], node_bitmap := {0, 1},
    nodes := ("n0,n1"), switches := (""), link_speed := 0 }

/-- leaf1 of the scenario forest. -/
def leaf1Rec : SwitchRecord :=
  { name := ("leaf1"), level := 0, parent := some 2, switch_index := [],
    switch_desc_index := [], node_bitmap := {2, 3},
    nodes := ("n2,n3"), switches := (""), link_speed := 0 }

/-- spine0 of the scenario forest. -/
def spine0Rec : SwitchRecord :=
  { name := ("spine0"), level := 1, parent := none, switch_index := [0, 1],
    switch_desc_index := [0, 1], node_bitmap := {0, 1, 2, 3},
    nodes := ("n0,n1,n2,n3"), switches := ("leaf0,leaf1"), link_speed := 0 }

/-- The scenario-2 forest: two leaves under one spine, four nodes. -/
def demoCtx : tree_context :=
  { switch_table := [leaf0Rec, leaf1Rec, spine0Rec], switch_levels := 1,
    node_names := [("n0"), ("n1"), ("n2"), ("n3")] }

example : Invariants demoCtx := by decide

/-! ## Proofs about the Expander -/

/-- Disjointness of two leaves' bitmaps (the relation invariant 4 imposes
pairwise on the table). -/
def leaf_disj (tbl : List SwitchRecord) (i j : Nat) : Prop :=
  (swt tbl i).level = 0 → (swt tbl j).level = 0 →
    (swt tbl i).node_bitmap ∩ (swt tbl j).node_bitmap = ∅

theorem whole_topo_go_mem (tbl : List SwitchRecord) (l : List Nat) :
    ∀ (m : Finset Nat), List.Pairwise (leaf_disj tbl) l → ∀ x,
      (x ∈ l.foldl (whole_topo_step tbl) m ↔
        x ∈ m ∨ ∃ i ∈ l, (swt tbl i).level = 0 ∧
          ((swt tbl i).node_bitmap ∩ m) ≠ ∅ ∧ x ∈ (swt tbl i).node_bitmap) := by
  induction l with
  | nil => intro m _ x; simp
  | cons i l ih =>
    intro m hp x
    rw [List.foldl_cons, ih _ hp.of_cons]
    have hrel : ∀ j ∈ l, leaf_disj tbl i j := fun j hj =>
      List.rel_of_pairwise_cons hp hj
    by_cases hlv : (swt tbl i).level = 0
    · by_cases hov : ((swt tbl i).node_bitmap ∩ m) = ∅
      · have hstep : whole_topo_step tbl m i = m := by
          unfold whole_topo_step
          simp [hlv, hov]
        rw [hstep]
        constructor
        · rintro (hx | ⟨j, hj, h1, h2, h3⟩)
          · exact Or.inl hx
          · exact Or.inr ⟨j, List.mem_cons_of_mem _ hj, h1, h2, h3⟩
        · rintro (hx | ⟨j, hj, h1, h2, h3⟩)
          · exact Or.inl hx
          · rcases List.mem_cons.mp hj with rfl | hj'
            · exact absurd hov h2
            · exact Or.inr ⟨j, hj', h1, h2, h3⟩
      · have hstep : whole_topo_step tbl m i =
            m ∪ (swt tbl i).node_bitmap := by
          unfold whole_topo_step
          simp [hlv, hov]
        rw [hstep]
        have hinv : ∀ j ∈ l, (swt tbl j).level = 0 →
            ((swt tbl j).node_bitmap ∩ (m ∪ (swt tbl i).node_bitmap)) =
              ((swt tbl j).node_bitmap ∩ m) := by
          intro j hj hjl
          have hdisj := hrel j hj hlv hjl
          by_cases hij : i = j
          · subst hij
            rw [Finset.inter_self] at hdisj
            rw [hdisj, Finset.empty_inter] at hov
            exact absurd rfl hov
          · rw [Finset.inter_union_distrib_left,
              Finset.inter_comm ((swt tbl j).node_bitmap)
                ((swt tbl i).node_bitmap), hdisj, Finset.union_empty]
        constructor
        · rintro (hx | ⟨j, hj, h1, h2, h3⟩)
          · rcases Finset.mem_union.mp hx with h | h
            · exact Or.inl h
            · exact Or.inr ⟨i, List.mem_cons_self _ _, hlv, hov, h⟩
          · refine Or.inr ⟨j, List.mem_cons_of_mem _ hj, h1, ?_, h3⟩
            rw [hinv j hj h1] at h2
            exact h2
        · rintro (hx | ⟨j, hj, h1, h2, h3⟩)
          · exact Or.inl (Finset.mem_union_left _ hx)
          · rcases List.mem_cons.mp hj with rfl | hj'
            · exact Or.inl (Finset.mem_union_right _ h3)
            · exact Or.inr ⟨j, hj', h1, by rw [hinv j hj' h1]; exact h2, h3⟩
    · have hstep : whole_topo_step tbl m i = m := by
        unfold whole_topo_step
        simp [hlv]
      rw [hstep]
      constructor
      · rintro (hx | ⟨j, hj, h1, h2, h3⟩)
        · exact Or.inl hx
        · exact Or.inr ⟨j, List.mem_cons_of_mem _ hj, h1, h2, h3⟩
      · rintro (hx | ⟨j, hj, h1, h2, h3⟩)
        · exact Or.inl hx
        · rcases List.mem_cons.mp hj with rfl | hj'
          · exact absurd h1 hlv
          · exact Or.inr ⟨j, hj', h1, h2, h3⟩

theorem leaf_disj_of_invariants (ctx : tree_context) (h : Invariants ctx) :
    List.Pairwise (leaf_disj ctx.switch_table)
      (List.range ctx.switch_table.length) := by
  have honeleaf := h.2.2.2.2.2.2.2.1
  refine (List.pairwise_lt_range _).imp_of_mem (fun ha hb hlt => ?_)
  intro h1 h2
  exact honeleaf _ (List.mem_range.mp ha) _ (List.mem_range.mp hb)
    ⟨Nat.ne_of_lt hlt, h1, h2⟩

/-- C7: for every forest satisfying the §3 invariants (in particular
invariant 4) and every node bitmap M, the Expander is idempotent:
expand (expand M) = expand M. -/
theorem C7_whole_topo_idempotent (ctx : tree_context) (h : Invariants ctx)
    (M : Finset Nat) :
    topology_p_whole_topo ctx (topology_p_whole_topo ctx M) =
      topology_p_whole_topo ctx M := by
  have hpw := leaf_disj_of_invariants ctx h
  have honeleaf := h.2.2.2.2.2.2.2.1
  apply Finset.ext
  intro x
  unfold topology_p_whole_topo
  rw [whole_topo_go_mem _ _ _ hpw, whole_topo_go_mem _ _ _ hpw]
  constructor
  · rintro (hx | ⟨i, hi, hil, hio, hxi⟩)
    · exact hx
    · rcases Finset.nonempty_iff_ne_empty.mpr hio with ⟨y, hy⟩
      have hybi := Finset.mem_inter.mp hy
      rw [whole_topo_go_mem _ _ _ hpw] at hybi
      rcases hybi.2 with hyM | ⟨j, hj, hjl, hjo, hyj⟩
      · refine Or.inr ⟨i, hi, hil, ?_, hxi⟩
        intro hemp
        have : y ∈ (swt ctx.switch_table i).node_bitmap ∩ M :=
          Finset.mem_inter.mpr ⟨hybi.1, hyM⟩
        rw [hemp] at this
        exact absurd this (Finset.not_mem_empty y)
      · by_cases hij : i = j
        · subst hij
          exact Or.inr ⟨i, hi, hil, hjo, hxi⟩
        · exfalso
          have hd := honeleaf i (List.mem_range.mp hi) j (List.mem_range.mp hj)
            ⟨hij, hil, hjl⟩
          have : y ∈ (swt ctx.switch_table i).node_bitmap ∩
              (swt ctx.switch_table j).node_bitmap :=
            Finset.mem_inter.mpr ⟨hybi.1, hyj⟩
          rw [hd] at this
          exact absurd this (Finset.not_mem_empty y)
  · intro hx
    exact Or.inl hx

/-- Witness for C7 at a concrete forest and mask (§8 scenario 5). -/
theorem C7_witness :
    Invariants demoCtx ∧
      topology_p_whole_topo demoCtx (topology_p_whole_topo demoCtx {1}) =
        topology_p_whole_topo demoCtx {1} :=
  ⟨by decide, C7_whole_topo_idempotent demoCtx (by decide) {1}⟩

/-! ## Proofs about the Addresser -/

/-- An empty forest (switch_count == 0). -/
def emptyCtx : tree_context :=
  { switch_table := [], switch_levels := 0, node_names := [] }

/-- C9 counterexample: the claim says the Addresser fails whenever the node
directory cannot resolve the name, but on an empty forest the empty-forest
check comes first: an unresolvable name still succeeds with
(address = name, pattern = "node"). -/
theorem C9_counterexample :
    find_node_record emptyCtx.node_names ("x") = none ∧
      topology_p_get_node_addr emptyCtx ("x") = some (("x"), ("node")) := by
  constructor
  · rfl
  · rfl

/-- C9 (amended): when the forest is non-empty the Addresser fails whenever
the node directory cannot resolve the name; when the forest is empty
(switch_count == 0) it returns (address = name, pattern = "node") without
consulting the directory. -/
theorem C9_get_node_addr (ctx : tree_context) (node_name : String) :
    (ctx.switch_count ≠ 0 → find_node_record ctx.node_names node_name = none →
      topology_p_get_node_addr ctx node_name = none) ∧
    (ctx.switch_count = 0 →
      topology_p_get_node_addr ctx node_name = some (node_name, ("node"))) := by
  constructor
  · intro hne hfind
    unfold tree_context.switch_count at hne
    unfold topology_p_get_node_addr
    rw [if_neg hne, hfind]
  · intro h0
    unfold tree_context.switch_count at h0
    unfold topology_p_get_node_addr
    rw [if_pos h0]

/-- Witness for C9 at concrete inputs: a non-empty forest with an unknown
name fails; the empty forest answers (name, "node"). -/
theorem C9_witness :
    topology_p_get_node_addr demoCtx ("zz") = none ∧
      topology_p_get_node_addr emptyCtx ("x") = some (("x"), ("node")) :=
  ⟨(C9_get_node_addr demoCtx ("zz")).1 (by decide) (by decide),
   (C9_get_node_addr emptyCtx ("x")).2 (by decide)⟩

/-! ## Proofs about the Mutator: error paths (C8, C10) -/

theorem swt_set_self (tbl : List SwitchRecord) (i : Nat) (r : SwitchRecord)
    (h : i < tbl.length) : swt (tbl.set i r) i = r := by
  simp [swt, List.getD, List.getElem?_set_self, h]

theorem swt_set_ne (tbl : List SwitchRecord) (i j : Nat) (r : SwitchRecord)
    (h : i ≠ j) : swt (tbl.set i r) j = swt tbl j := by
  simp [swt, List.getD, List.getElem?_set_ne, h]

theorem swt_append_lt (tbl tl : List SwitchRecord) (i : Nat) (h : i < tbl.length) :
    swt (tbl ++ tl) i = swt tbl i := by
  simp [swt, List.getD, List.getElem?_append, h]

/-- The pre-existing part of the table is untouched (same bitmaps and nodes
strings); the table can only have grown. -/
def TablePrefixSafe (t1 t2 : List SwitchRecord) : Prop :=
  t1.length ≤ t2.length ∧ ∀ i < t1.length,
    (swt t2 i).node_bitmap = (swt t1 i).node_bitmap ∧
      (swt t2 i).nodes = (swt t1 i).nodes

theorem TablePrefixSafe.refl (t : List SwitchRecord) : TablePrefixSafe t t :=
  ⟨Nat.le_refl _, fun _ _ => ⟨rfl, rfl⟩⟩

theorem TablePrefixSafe.trans {t1 t2 t3 : List SwitchRecord}
    (h12 : TablePrefixSafe t1 t2) (h23 : TablePrefixSafe t2 t3) :
    TablePrefixSafe t1 t3 := by
  refine ⟨Nat.le_trans h12.1 h23.1, fun i hi => ?_⟩
  have h2 := h23.2 i (Nat.lt_of_lt_of_le hi h12.1)
  have h1 := h12.2 i hi
  exact ⟨h2.1.trans h1.1, h2.2.trans h1.2⟩

theorem safe_append (tbl tl : List SwitchRecord) : TablePrefixSafe tbl (tbl ++ tl) := by
  refine ⟨by simp, fun i hi => ?_⟩
  rw [swt_append_lt _ _ _ hi]
  exact ⟨rfl, rfl⟩

theorem safe_set (tbl : List SwitchRecord) (p : Nat) (r : SwitchRecord)
    (h : p < tbl.length → r.node_bitmap = (swt tbl p).node_bitmap ∧
      r.nodes = (swt tbl p).nodes) :
    TablePrefixSafe tbl (tbl.set p r) := by
  refine ⟨by rw [List.length_set], fun i hi => ?_⟩
  by_cases hpi : p = i
  · subst hpi
    rw [swt_set_self _ _ _ hi]
    exact h hi
  · rw [swt_set_ne _ _ _ _ hpi]
    exact ⟨rfl, rfl⟩

theorem swt_append_self (tbl : List SwitchRecord) (nr : SwitchRecord) :
    swt (tbl ++ [nr]) tbl.length = nr := by
  simp [swt, List.getD, List.getElem?_append, Nat.lt_irrefl]

theorem append_desc_safe (child : Nat) :
    ∀ (fuel : Nat) (tbl : List SwitchRecord) (o : Option Nat),
      TablePrefixSafe tbl (append_desc child fuel tbl o) := by
  intro fuel
  induction fuel with
  | zero =>
    intro tbl o
    have h0 : append_desc child 0 tbl o = tbl := rfl
    rw [h0]
    exact TablePrefixSafe.refl tbl
  | succ fuel ih =>
    intro tbl o
    cases o with
    | none =>
      have h0 : append_desc child (fuel + 1) tbl none = tbl := rfl
      rw [h0]
      exact TablePrefixSafe.refl tbl
    | some a =>
      have h0 : append_desc child (fuel + 1) tbl (some a) =
          append_desc child fuel
            (tbl.set a { swt tbl a with switch_desc_index :=
              (swt tbl a).switch_desc_index ++ [child] }) (swt tbl a).parent := rfl
      rw [h0]
      apply TablePrefixSafe.trans _ (ih _ _)
      apply safe_set
      intro _
      exact ⟨rfl, rfl⟩

theorem add_switch_safe (ctx : tree_context) (tok : String) (p : Nat) :
    TablePrefixSafe ctx.switch_table
      (switch_record_add_switch ctx tok p).1.switch_table ∧
    (switch_record_add_switch ctx tok p).1.switch_levels = ctx.switch_levels ∧
    (switch_record_add_switch ctx tok p).1.node_names = ctx.node_names := by
  unfold switch_record_add_switch
  refine ⟨?_, rfl, rfl⟩
  apply TablePrefixSafe.trans _ (append_desc_safe _ _ _ _)
  apply TablePrefixSafe.trans (safe_append _ _)
  apply safe_set
  intro hp
  by_cases hlt : p < ctx.switch_table.length
  · rw [swt_append_lt _ _ _ hlt]
    exact ⟨rfl, rfl⟩
  · have hpl : p = ctx.switch_table.length := by
      rw [List.length_append] at hp
      simp at hp
      omega
    subst hpl
    rw [swt_append_self]
    have hout : swt ctx.switch_table ctx.switch_table.length = dfltSwitch := by
      simp [swt, List.getD, List.getElem?_eq_none (Nat.le_refl _)]
    rw [hout]
    exact ⟨rfl, rfl⟩

theorem walk_unit_path_some :
    ∀ (toks : List String) (p : Nat) (ctx : tree_context),
      ∃ ctx1 a, walk_unit_path toks (some p) ctx = some (ctx1, some a) ∧
        TablePrefixSafe ctx.switch_table ctx1.switch_table ∧
        ctx1.switch_levels = ctx.switch_levels ∧
        ctx1.node_names = ctx.node_names := by
  intro toks
  induction toks with
  | nil =>
    intro p ctx
    exact ⟨ctx, p, rfl, TablePrefixSafe.refl _, rfl, rfl⟩
  | cons tok rest ih =>
    intro p ctx
    cases hlook : switch_record_get_switch_inx tok ctx.switch_table with
    | some inx =>
      obtain ⟨ctx1, a, heq, hsafe, hl, hn⟩ := ih inx ctx
      refine ⟨ctx1, a, ?_, hsafe, hl, hn⟩
      simp only [walk_unit_path, hlook]
      exact heq
    | none =>
      obtain ⟨ctx1, a, heq, hsafe, hl, hn⟩ :=
        ih (switch_record_add_switch ctx tok p).2 (switch_record_add_switch ctx tok p).1
      have has := add_switch_safe ctx tok p
      refine ⟨ctx1, a, ?_, TablePrefixSafe.trans has.1 hsafe,
        by rw [hl, has.2.1], by rw [hn, has.2.2]⟩
      simp only [walk_unit_path, hlook]
      exact heq

theorem walk_unit_path_safe (toks : List String) (ctx : tree_context) :
    ∀ ctx1 ai, walk_unit_path toks none ctx = some (ctx1, ai) →
      TablePrefixSafe ctx.switch_table ctx1.switch_table ∧
      ctx1.switch_levels = ctx.switch_levels ∧
      ctx1.node_names = ctx.node_names := by
  cases toks with
  | nil =>
    intro ctx1 ai h
    simp only [walk_unit_path] at h
    obtain ⟨h1, h2⟩ := Prod.mk.injEq _ _ _ _ ▸ Option.some.injEq _ _ ▸ h
    cases h
    exact ⟨TablePrefixSafe.refl _, rfl, rfl⟩
  | cons tok rest =>
    intro ctx1 ai h
    cases hlook : switch_record_get_switch_inx tok ctx.switch_table with
    | some inx =>
      simp only [walk_unit_path, hlook] at h
      obtain ⟨ctx1', a, heq, hsafe, hl, hn⟩ := walk_unit_path_some rest inx ctx
      rw [heq] at h
      cases h
      exact ⟨hsafe, hl, hn⟩
    | none =>
      simp only [walk_unit_path, hlook] at h
      exact absurd h (by simp)

/-- C10: whenever the mutator returns an error, no pre-existing switch's
node_bitmap has changed and no nodes string has been regenerated — every
failure exit precedes the bitmap-propagation loop — although switches
appended while resolving earlier path segments remain (the table only
grows). -/
theorem C10_add_rm_node_error_untouched (ctx : tree_context) (node_inx : Nat)
    (unit : Option String)
    (herr : (topology_p_add_rm_node node_inx unit ctx).1 = false) :
    ctx.switch_table.length ≤
      (topology_p_add_rm_node node_inx unit ctx).2.switch_table.length ∧
    ∀ i < ctx.switch_table.length,
      (swt (topology_p_add_rm_node node_inx unit ctx).2.switch_table i).node_bitmap
          = (swt ctx.switch_table i).node_bitmap ∧
        (swt (topology_p_add_rm_node node_inx unit ctx).2.switch_table i).nodes
          = (swt ctx.switch_table i).nodes := by
  revert herr
  unfold topology_p_add_rm_node
  cases hw : walk_unit_path
      (match unit with | none => [] | some u => strtok_colon u) none ctx with
  | none =>
    intro _
    exact TablePrefixSafe.refl ctx.switch_table
  | some r =>
    obtain ⟨ctx1, ai⟩ := r
    have hsafe := walk_unit_path_safe _ ctx ctx1 ai hw
    cases ai with
    | some a =>
      dsimp only
      by_cases hlv : (swt ctx1.switch_table a).level ≠ 0
      · rw [if_pos hlv]
        intro _
        exact hsafe.1
      · rw [if_neg hlv]
        intro hfalse
        exact absurd hfalse (by simp)
    | none =>
      dsimp only
      intro hfalse
      exact absurd hfalse (by simp)

/-- Witness for C10: a failing call (unknown first segment) at a concrete
forest leaves every bitmap and nodes string untouched. -/
theorem C10_witness :
    demoCtx.switch_table.length ≤
      (topology_p_add_rm_node 0 (some ("nosuch:leaf1")) demoCtx).2.switch_table.length ∧
    ∀ i < demoCtx.switch_table.length,
      (swt (topology_p_add_rm_node 0 (some ("nosuch:leaf1")) demoCtx).2.switch_table i).node_bitmap
          = (swt demoCtx.switch_table i).node_bitmap ∧
        (swt (topology_p_add_rm_node 0 (some ("nosuch:leaf1")) demoCtx).2.switch_table i).nodes
          = (swt demoCtx.switch_table i).nodes :=
  C10_add_rm_node_error_untouched demoCtx 0 (some ("nosuch:leaf1")) (by decide)

/-- C8: with a supplied (nonempty) unit path the mutator fails exactly when
the first segment names no existing switch, or when the switch the path
finally resolves to is not a leaf; it succeeds in all other cases.
(The lookup and append of path segments are external to src/ and modelled
from the spec.) -/
theorem C8_add_rm_node_error_iff (ctx : tree_context) (node_inx : Nat)
    (u : String) (t : String) (rest : List String)
    (htoks : strtok_colon u = t :: rest) :
    (topology_p_add_rm_node node_inx (some u) ctx).1 = false ↔
      (switch_record_get_switch_inx t ctx.switch_table = none ∨
        ∃ ctx1 a, walk_unit_path (strtok_colon u) none ctx = some (ctx1, some a) ∧
          (swt ctx1.switch_table a).level ≠ 0) := by
  unfold topology_p_add_rm_node
  dsimp only
  rw [htoks]
  cases hlook : switch_record_get_switch_inx t ctx.switch_table with
  | none =>
    simp only [walk_unit_path, hlook]
    constructor
    · intro _
      exact Or.inl trivial
    · intro _
      trivial
  | some inx =>
    obtain ⟨ctx1, a, heq, _, _, _⟩ := walk_unit_path_some rest inx ctx
    simp only [walk_unit_path, hlook, heq]
    by_cases hlv : (swt ctx1.switch_table a).level ≠ 0
    · rw [if_pos hlv]
      constructor
      · intro _
        exact Or.inr ⟨ctx1, a, rfl, hlv⟩
      · intro _
        rfl
    · rw [if_neg hlv]
      constructor
      · intro hfalse
        exact absurd hfalse (by simp)
      · rintro (h1 | ⟨ctx1bis, abis, heqbis, hlvbis⟩)
        · cases h1
        · cases heqbis
          exact absurd hlvbis hlv

/-- Witness for C8 at concrete inputs: a path resolving to the non-leaf
spine0 fails. -/
theorem C8_witness :
    (topology_p_add_rm_node 0 (some ("spine0")) demoCtx).1 = false :=
  (C8_add_rm_node_error_iff demoCtx 0 ("spine0") ("spine0") [] (by decide)).mpr
    (Or.inr ⟨demoCtx, 2, by decide, by decide⟩)

/-! ## Proofs about the Snapshot codec (C5) -/

theorem unpack16_pack16 (v : Nat) (rest : List Nat) (hv : v < 65536) :
    safe_unpack16 (pack16 v ++ rest) = some (v, rest) := by
  unfold pack16 safe_unpack16
  simp only [List.cons_append, List.nil_append]
  have hval : v / 256 % 256 * 256 + v % 256 = v := by omega
  rw [hval]

theorem unpack32_pack32 (v : Nat) (rest : List Nat) (hv : v < 4294967296) :
    safe_unpack32 (pack32 v ++ rest) = some (v, rest) := by
  unfold pack32 safe_unpack32
  simp only [List.cons_append, List.nil_append]
  have hval : ((v / 16777216 % 256 * 256 + v / 65536 % 256) * 256 +
      v / 256 % 256) * 256 + v % 256 = v := by omega
  rw [hval]

theorem unpackstr_packstr (s : List Nat) (rest : List Nat)
    (hlen : s.length < 4294967296) :
    safe_unpackstr (packstr s ++ rest) = some (s, rest) := by
  unfold packstr safe_unpackstr
  rw [List.append_assoc, unpack32_pack32 _ _ hlen]
  dsimp only
  have hge : ¬ (s ++ rest).length < s.length := by
    simp
  rw [if_neg hge, List.take_left, List.drop_left]

theorem peel16 (v : Nat) (rest : List Nat) (k : Nat) (hv : v < 65536) :
    safe_unpack16 ((pack16 v ++ rest).take k) =
      if k < 2 then none else some (v, rest.take (k - 2)) := by
  match k with
  | 0 => simp [safe_unpack16]
  | 1 => simp [pack16, safe_unpack16]
  | (n + 2) =>
    rw [if_neg (by omega)]
    unfold pack16 safe_unpack16
    simp only [List.cons_append, List.nil_append, List.take_succ_cons]
    have hval : v / 256 % 256 * 256 + v % 256 = v := by omega
    rw [hval]
    simp

theorem peel32 (v : Nat) (rest : List Nat) (k : Nat) (hv : v < 4294967296) :
    safe_unpack32 ((pack32 v ++ rest).take k) =
      if k < 4 then none else some (v, rest.take (k - 4)) := by
  match k with
  | 0 => simp [safe_unpack32]
  | 1 => simp [pack32, safe_unpack32]
  | 2 => simp [pack32, safe_unpack32]
  | 3 => simp [pack32, safe_unpack32]
  | (n + 4) =>
    rw [if_neg (by omega)]
    unfold pack32 safe_unpack32
    simp only [List.cons_append, List.nil_append, List.take_succ_cons]
    have hval : ((v / 16777216 % 256 * 256 + v / 65536 % 256) * 256 +
        v / 256 % 256) * 256 + v % 256 = v := by omega
    rw [hval]
    simp

theorem peelstr (s : List Nat) (rest : List Nat) (k : Nat)
    (hlen : s.length < 4294967296) :
    safe_unpackstr ((packstr s ++ rest).take k) =
      if k < 4 + s.length then none
      else some (s, rest.take (k - (4 + s.length))) := by
  unfold packstr safe_unpackstr
  rw [List.append_assoc, peel32 _ _ _ hlen]
  by_cases h4 : k < 4
  · rw [if_pos h4, if_pos (by omega)]
  · rw [if_neg h4]
    dsimp only
    by_cases hks : k < 4 + s.length
    · have hshort : ((s ++ rest).take (k - 4)).length < s.length := by
        rw [List.length_take]
        exact Nat.lt_of_le_of_lt (Nat.min_le_left _ _) (by omega)
      rw [if_pos hshort, if_pos hks]
    · have htake : (s ++ rest).take (k - 4) =
          s ++ rest.take (k - 4 - s.length) := by
        rw [List.take_append_eq_append_take,
          List.take_of_length_le (by omega)]
      rw [htake]
      have hnlt : ¬ (s ++ rest.take (k - 4 - s.length)).length < s.length := by
        simp
      have harith : k - 4 - s.length = k - (4 + s.length) := by omega
      rw [if_neg hnlt, if_neg hks, List.take_left, List.drop_left, harith]

/-- Per-record wire-width well-formedness. -/
def record_wf (r : topoinfo_switch) : Prop :=
  r.level < 65536 ∧ r.link_speed < 4294967296 ∧ r.name.length < 4294967296 ∧
    r.nodes.length < 4294967296 ∧ r.switches.length < 4294967296

theorem length_pack_topo_record (r : topoinfo_switch) :
    (pack_topo_record r).length =
      18 + r.name.length + r.nodes.length + r.switches.length := by
  simp [pack_topo_record, packstr, pack32, pack16]
  omega

theorem unpack_records_roundtrip :
    ∀ (l : List topoinfo_switch) (suffix : List Nat),
      (∀ r ∈ l, record_wf r) →
      unpack_topo_records l.length ((l.map pack_topo_record).flatten ++ suffix) =
        some (l, suffix) := by
  intro l
  induction l with
  | nil => intro suffix _; rfl
  | cons r l ih =>
    intro suffix hwf
    obtain ⟨h1, h2, h3, h4, h5⟩ := hwf r (List.mem_cons_self _ _)
    have hl : l.length + 1 = (r :: l).length := rfl
    simp only [List.map_cons, List.flatten_cons, List.length_cons]
    unfold unpack_topo_records
    rw [pack_topo_record]
    simp only [List.append_assoc]
    rw [unpack16_pack16 _ _ h1]
    dsimp only
    rw [unpack32_pack32 _ _ h2]
    dsimp only
    rw [unpackstr_packstr _ _ h3]
    dsimp only
    rw [unpackstr_packstr _ _ h4]
    dsimp only
    rw [unpackstr_packstr _ _ h5]
    dsimp only
    rw [ih suffix (fun x hx => hwf x (List.mem_cons_of_mem _ hx))]

theorem unpack_records_prefix_none :
    ∀ (l : List topoinfo_switch) (k : Nat),
      (∀ r ∈ l, record_wf r) →
      k < ((l.map pack_topo_record).flatten).length →
      unpack_topo_records l.length (((l.map pack_topo_record).flatten).take k) =
        none := by
  intro l
  induction l with
  | nil =>
    intro k _ hk
    simp at hk
  | cons r l ih =>
    intro k hwf hk
    obtain ⟨h1, h2, h3, h4, h5⟩ := hwf r (List.mem_cons_self _ _)
    simp only [List.map_cons, List.flatten_cons, List.length_cons] at hk ⊢
    rw [List.length_append, length_pack_topo_record] at hk
    unfold unpack_topo_records
    rw [pack_topo_record]
    simp only [List.append_assoc]
    rw [peel16 _ _ _ h1]
    by_cases c1 : k < 2
    · rw [if_pos c1]
    · rw [if_neg c1]
      dsimp only
      rw [peel32 _ _ _ h2]
      by_cases c2 : k - 2 < 4
      · rw [if_pos c2]
      · rw [if_neg c2]
        dsimp only
        rw [peelstr _ _ _ h3]
        by_cases c3 : k - 2 - 4 < 4 + r.name.length
        · rw [if_pos c3]
        · rw [if_neg c3]
          dsimp only
          rw [peelstr _ _ _ h4]
          by_cases c4 : k - 2 - 4 - (4 + r.name.length) < 4 + r.nodes.length
          · rw [if_pos c4]
          · rw [if_neg c4]
            dsimp only
            rw [peelstr _ _ _ h5]
            by_cases c5 : k - 2 - 4 - (4 + r.name.length) - (4 + r.nodes.length) <
                4 + r.switches.length
            · rw [if_pos c5]
            · rw [if_neg c5]
              dsimp only
              rw [ih _ (fun x hx => hwf x (List.mem_cons_of_mem _ hx)) (by omega)]

/-- C5: for every well-formed snapshot, unpacking the packed buffer yields
the snapshot back field-for-field, and unpacking any strict prefix
(truncated buffer) discards the partial structure and returns the error
(`none`, the NULLed output pointer). -/
theorem C5_codec_roundtrip (t : topoinfo_tree) (hwf : topoinfo_wf t) :
    topology_p_topology_unpack (topology_p_topology_pack t) = some t ∧
    ∀ k < (topology_p_topology_pack t).length,
      topology_p_topology_unpack ((topology_p_topology_pack t).take k) = none := by
  obtain ⟨cnt, arr⟩ := t
  obtain ⟨hcnt, hcnt32, hrec⟩ := hwf
  simp only at hcnt hcnt32 hrec
  subst hcnt
  have hwfl : ∀ r ∈ arr, record_wf r := fun r hr => hrec r hr
  constructor
  · unfold topology_p_topology_pack topology_p_topology_unpack
    simp only
    rw [unpack32_pack32 _ _ hcnt32]
    dsimp only
    have hrt := unpack_records_roundtrip arr [] hwfl
    rw [List.append_nil] at hrt
    rw [hrt]
  · intro k hk
    unfold topology_p_topology_pack at hk ⊢
    simp only at hk ⊢
    rw [List.length_append] at hk
    have hp32 : (pack32 arr.length).length = 4 := by
      simp [pack32]
    rw [hp32] at hk
    unfold topology_p_topology_unpack
    rw [peel32 _ _ _ hcnt32]
    by_cases c0 : k < 4
    · rw [if_pos c0]
    · rw [if_neg c0]
      dsimp only
      rw [unpack_records_prefix_none _ _ hwfl (by omega)]

instance (t : topoinfo_tree) : Decidable (topoinfo_wf t) := by
  unfold topoinfo_wf
  infer_instance

/-- Witness for C5 at a concrete snapshot: the round trip recovers it and a
truncated buffer fails to decode. -/
theorem C5_witness :
    topoinfo_wf (topoinfo_tree.mk 1 [topoinfo_switch.mk 3 7 [65] [66, 67] []]) ∧
    topology_p_topology_unpack (topology_p_topology_pack
        (topoinfo_tree.mk 1 [topoinfo_switch.mk 3 7 [65] [66, 67] []])) =
      some (topoinfo_tree.mk 1 [topoinfo_switch.mk 3 7 [65] [66, 67] []]) ∧
    topology_p_topology_unpack ((topology_p_topology_pack
        (topoinfo_tree.mk 1 [topoinfo_switch.mk 3 7 [65] [66, 67] []])).take 5) =
      none :=
  ⟨by decide,
   (C5_codec_roundtrip _ (by decide)).1,
   (C5_codec_roundtrip _ (by decide)).2 5 (by decide)⟩

/-! ## Proofs about the Router: partition (C1) -/

theorem mem_finset_asc (b : Finset Nat) (x : Nat) :
    x ∈ finset_asc b ↔ x ∈ b := by
  unfold finset_asc
  simp only [List.mem_filter, List.mem_range, decide_eq_true_eq]
  constructor
  · exact fun h => h.2
  · intro hx
    refine ⟨?_, hx⟩
    have hle := Finset.le_sup (f := id) hx
    simp only [id_eq] at hle
    omega

theorem nodup_finset_asc (b : Finset Nat) : (finset_asc b).Nodup :=
  (List.nodup_range _).filter _

theorem foldr_union_mem (l : List (Finset Nat)) (x : Nat) :
    x ∈ l.foldr (· ∪ ·) ∅ ↔ ∃ f ∈ l, x ∈ f := by
  induction l with
  | nil => simp
  | cons f l ih => simp [ih]

theorem foldr_union_append (l1 l2 : List (Finset Nat)) :
    (l1 ++ l2).foldr (· ∪ ·) ∅ =
      l1.foldr (· ∪ ·) ∅ ∪ l2.foldr (· ∪ ·) ∅ := by
  induction l1 with
  | nil => simp
  | cons f l1 ih => simp [ih, Finset.union_assoc]

/-- The running partition invariant of the split: the emitted sub-lists are
pairwise disjoint, each is disjoint from the remaining message set, and
together with it they tile the original destination set. -/
def Tiles (d0 : Finset Nat) (out : List (Finset Nat)) (d : Finset Nat) : Prop :=
  List.Pairwise Disjoint out ∧ (∀ f ∈ out, Disjoint f d) ∧
    (out.foldr (· ∪ ·) ∅) ∪ d = d0

theorem tiles_emit (d0 : Finset Nat) (out : List (Finset Nat)) (d f : Finset Nat)
    (ht : Tiles d0 out d) (hsub : f ⊆ d) :
    Tiles d0 (out ++ [f]) (d \ f) := by
  obtain ⟨hpw, hdis, hun⟩ := ht
  refine ⟨?_, ?_, ?_⟩
  · rw [List.pairwise_append]
    refine ⟨hpw, List.pairwise_singleton _ _, ?_⟩
    intro o ho g hg
    rw [List.mem_singleton] at hg
    subst hg
    exact Finset.disjoint_of_subset_right hsub (hdis o ho)
  · intro g hg
    rcases List.mem_append.mp hg with hg | hg
    · exact Finset.disjoint_of_subset_right (Finset.sdiff_subset) (hdis g hg)
    · rw [List.mem_singleton] at hg
      subst hg
      exact (Finset.sdiff_disjoint).symm
  · rw [foldr_union_append]
    have h1 : ([f] : List (Finset Nat)).foldr (· ∪ ·) ∅ = f := by
      simp
    rw [h1, Finset.union_assoc, Finset.union_sdiff_of_subset hsub]
    exact hun

theorem subtree_split_children_tiles (tbl : List SwitchRecord) (msg : Nat)
    (d0 : Finset Nat) :
    ∀ (ch : List Nat) (d : Finset Nat) (out : List (Finset Nat)) (lst : Nat),
      Tiles d0 out d →
      Tiles d0 (subtree_split_children tbl msg ch d out lst).2.1
        (subtree_split_children tbl msg ch d out lst).1 := by
  intro ch
  induction ch with
  | nil => intro d out lst ht; exact ht
  | cons k rest ih =>
    intro d out lst ht
    show Tiles d0 (subtree_split_children tbl msg (k :: rest) d out lst).2.1 _
    unfold subtree_split_children
    by_cases hc : ((swt tbl k).node_bitmap ∩ d).card = 0
    · rw [if_pos hc]
      exact ih d out lst ht
    · rw [if_neg hc]
      have hemit := tiles_emit d0 out d ((swt tbl k).node_bitmap ∩ d) ht
        Finset.inter_subset_right
      by_cases hstop : lst + ((swt tbl k).node_bitmap ∩ d).card = msg
      · rw [if_pos hstop]
        exact hemit
      · rw [if_neg hstop]
        exact ih _ _ _ hemit

theorem split_marked_loop_tiles (tbl : List SwitchRecord) (s : Finset Nat)
    (d0 : Finset Nat) :
    ∀ (idxs : List Nat) (d : Finset Nat) (msg : Nat) (out : List (Finset Nat)),
      Tiles d0 out d →
      Tiles d0 (split_marked_loop tbl s idxs d msg out).2.1
        (split_marked_loop tbl s idxs d msg out).1 := by
  intro idxs
  induction idxs with
  | nil => intro d msg out ht; exact ht
  | cons j rest ih =>
    intro d msg out ht
    show Tiles d0 (split_marked_loop tbl s (j :: rest) d msg out).2.1 _
    unfold split_marked_loop
    by_cases hj : j ∈ s
    · rw [if_pos hj]
      exact ih _ _ _
        (subtree_split_children_tiles tbl msg d0 _ d out 0 ht)
    · rw [if_neg hj]
      exact ih _ _ _ ht

theorem orphan_lists_partition (d : Finset Nat) :
    List.Pairwise Disjoint (orphan_lists d) ∧
      (orphan_lists d).foldr (· ∪ ·) ∅ = d := by
  constructor
  · unfold orphan_lists
    refine List.Pairwise.map _ ?_ ((nodup_finset_asc d))
    intro a b hab
    exact Finset.disjoint_singleton.mpr hab
  · apply Finset.ext
    intro x
    rw [foldr_union_mem]
    unfold orphan_lists
    simp [mem_finset_asc]

theorem chunk_list_flatten (w : Nat) (hw : 0 < w) :
    ∀ (fuel : Nat) (l : List Nat), l.length ≤ fuel →
      (chunk_list w fuel l).flatten = l := by
  intro fuel
  induction fuel with
  | zero =>
    intro l hl
    have h0 : l = [] := List.eq_nil_of_length_eq_zero (Nat.le_zero.mp hl)
    subst h0
    rfl
  | succ fuel ih =>
    intro l hl
    cases l with
    | nil => rfl
    | cons a t =>
      show ((a :: t).take w :: chunk_list w fuel ((a :: t).drop w)).flatten = a :: t
      rw [List.flatten_cons,
        ih _ (by rw [List.length_drop]; simp at hl ⊢; omega),
        List.take_append_drop]

theorem chunk_list_subset (w : Nat) :
    ∀ (fuel : Nat) (l : List Nat) (c : List Nat), c ∈ chunk_list w fuel l →
      ∀ x ∈ c, x ∈ l := by
  intro fuel
  induction fuel with
  | zero =>
    intro l c hc
    have h0 : chunk_list w 0 l = [] := rfl
    rw [h0] at hc
    cases hc
  | succ fuel ih =>
    intro l c hc
    cases l with
    | nil => cases hc
    | cons a t =>
      rcases List.mem_cons.mp hc with rfl | hc'
      · exact fun x hx => List.take_subset _ _ hx
      · exact fun x hx => List.drop_subset _ _ (ih _ _ hc' x hx)

theorem chunk_list_pairwise (w : Nat) :
    ∀ (fuel : Nat) (l : List Nat), l.Nodup →
      List.Pairwise Disjoint ((chunk_list w fuel l).map List.toFinset) := by
  intro fuel
  induction fuel with
  | zero =>
    intro l _
    have h0 : chunk_list w 0 l = [] := rfl
    rw [h0]
    exact List.Pairwise.nil
  | succ fuel ih =>
    intro l hnd
    cases l with
    | nil => exact List.Pairwise.nil
    | cons a t =>
      show List.Pairwise Disjoint
        (((a :: t).take w :: chunk_list w fuel ((a :: t).drop w)).map List.toFinset)
      rw [List.map_cons]
      refine List.Pairwise.cons ?_ (ih _ (hnd.sublist (List.drop_sublist _ _)))
      intro g hg
      rcases List.mem_map.mp hg with ⟨c, hc, rfl⟩
      rw [Finset.disjoint_left]
      intro x hx1 hx2
      have hxt : x ∈ (a :: t).take w := List.mem_toFinset.mp hx1
      have hxd : x ∈ (a :: t).drop w :=
        chunk_list_subset w fuel _ _ hc x (List.mem_toFinset.mp hx2)
      exact (List.disjoint_take_drop hnd (Nat.le_refl w)) hxt hxd

theorem treewidth_split_partition (hl : Finset Nat) (tw : Nat) (htw : 0 < tw) :
    List.Pairwise Disjoint (common_topo_split_hostlist_treewidth hl tw).1 ∧
      ((common_topo_split_hostlist_treewidth hl tw).1.foldr (· ∪ ·) ∅) = hl := by
  constructor
  · exact chunk_list_pairwise tw _ _ (nodup_finset_asc hl)
  · apply Finset.ext
    intro x
    rw [foldr_union_mem]
    constructor
    · rintro ⟨f, hf, hx⟩
      rcases List.mem_map.mp hf with ⟨c, hc, rfl⟩
      exact (mem_finset_asc hl x).mp
        (chunk_list_subset tw _ _ _ hc x (List.mem_toFinset.mp hx))
    · intro hx
      have hxa : x ∈ (finset_asc hl) := (mem_finset_asc hl x).mpr hx
      have hfl : x ∈ (chunk_list tw (finset_asc hl).length (finset_asc hl)).flatten := by
        rw [chunk_list_flatten tw htw _ _ (Nat.le_refl _)]
        exact hxa
      rcases List.mem_flatten.mp hfl with ⟨c, hc, hxc⟩
      exact ⟨c.toFinset, List.mem_map_of_mem _ hc, List.mem_toFinset.mpr hxc⟩

/-- C1: for every forest satisfying the §3 invariants, every destination set
and every tree_width ≥ 2, the sub-hostlists the router emits (orphan
singletons of step 8 included, and likewise along the delegating branches)
are pairwise disjoint and their union is exactly the destination set. -/
theorem C1_split_hostlist_partition (route_tree : Bool) (ctx : tree_context)
    (_hinv : Invariants ctx) (D : Finset Nat) (tree_width : Nat)
    (htw : 2 ≤ tree_width) :
    List.Pairwise Disjoint
        (topology_p_split_hostlist route_tree ctx D tree_width).1 ∧
      (topology_p_split_hostlist route_tree ctx D tree_width).1.foldr
        (· ∪ ·) ∅ = D := by
  have htw0 : 0 < tree_width := by omega
  cases route_tree with
  | false => exact treewidth_split_partition D tree_width htw0
  | true =>
    unfold topology_p_split_hostlist
    rw [if_neg (by simp)]
    dsimp only
    by_cases hdeg : router_degenerate ctx D tree_width = true
    · rw [if_pos hdeg]
      exact treewidth_split_partition D tree_width htw0
    · rw [if_neg hdeg]
      have ht0 : Tiles D [] D := ⟨List.Pairwise.nil, by simp, by simp⟩
      have hfin := split_marked_loop_tiles ctx.switch_table
        (router_merged ctx D tree_width).switch_bitmap D
        (List.range ctx.switch_table.length) D D.card [] ht0
      obtain ⟨hpw, hdis, hun⟩ := hfin
      obtain ⟨hopw, houn⟩ := orphan_lists_partition
        (split_marked_loop ctx.switch_table
          (router_merged ctx D tree_width).switch_bitmap
          (List.range ctx.switch_table.length) D D.card []).1
      constructor
      · rw [List.pairwise_append]
        refine ⟨hpw, hopw, ?_⟩
        intro o ho g hg
        rcases List.mem_map.mp hg with ⟨j, hj, rfl⟩
        have hjd := (mem_finset_asc _ j).mp hj
        exact Finset.disjoint_singleton_right.mpr
          (fun hja => (Finset.disjoint_left.mp (hdis o ho)) hja hjd)
      · rw [foldr_union_append, houn]
        exact hun

/-- Witness for C1 at §8 scenario 2: destination {n1, n2}, tree width 2. -/
theorem C1_witness :
    List.Pairwise Disjoint
        (topology_p_split_hostlist true demoCtx {1, 2} 2).1 ∧
      (topology_p_split_hostlist true demoCtx {1, 2} 2).1.foldr (· ∪ ·) ∅ =
        {1, 2} :=
  C1_split_hostlist_partition true demoCtx (by decide) {1, 2} 2 (by decide)

/-! ## Proofs about the Router: depth (C6) -/

theorem foldr_max_init (f : Nat → Nat) (l : List Nat) :
    ∀ a, l.foldr (fun j m => max (f j) m) a =
      max (l.foldr (fun j m => max (f j) m) 0) a := by
  induction l with
  | nil => intro a; simp
  | cons j l ih =>
    intro a
    simp only [List.foldr_cons]
    rw [ih a, Nat.max_assoc]

theorem seed_go (tbl : List SwitchRecord) (D : Finset Nat) (tw : Nat)
    (l : List Nat) :
    ∀ (p : Finset Nat × Nat),
      (l.foldl (seed_step tbl D tw) p).2 =
        max p.2 ((l.filter (fun j => decide ((swt tbl j).level = 0 ∧
            ((swt tbl j).node_bitmap ∩ D).card ≠ 0))).foldr
          (fun j m => max (leaf_tree_depth tw
            ((swt tbl j).node_bitmap ∩ D).card) m) 0) := by
  induction l with
  | nil => intro p; simp
  | cons j l ih =>
    intro p
    rw [List.foldl_cons, ih]
    by_cases hc : (swt tbl j).level = 0 ∧ ((swt tbl j).node_bitmap ∩ D).card ≠ 0
    · have hstep : (seed_step tbl D tw p j).2 =
          max p.2 (leaf_tree_depth tw ((swt tbl j).node_bitmap ∩ D).card) := by
        unfold seed_step
        rw [if_pos hc]
      rw [hstep, List.filter_cons_of_pos
          (by simp only [decide_eq_true_eq]; exact hc), List.foldr_cons,
        Nat.max_assoc]
    · have hstep : (seed_step tbl D tw p j).2 = p.2 := by
        unfold seed_step
        rw [if_neg hc]
      rw [hstep, List.filter_cons_of_neg
          (by simp only [decide_eq_true_eq]; exact hc)]

theorem foldr_max_filter_eq_sup (n : Nat) (cond : Nat → Prop)
    [DecidablePred cond] (f : Nat → Nat) :
    ((List.range n).filter (fun j => decide (cond j))).foldr
        (fun j m => max (f j) m) 0 =
      Finset.sup ((Finset.range n).filter cond) f := by
  induction n with
  | zero => simp
  | succ n ih =>
    rw [List.range_succ, List.filter_append, Finset.range_succ,
      Finset.filter_insert]
    by_cases hc : cond n
    · rw [List.filter_cons_of_pos (by simp only [decide_eq_true_eq]; exact hc),
        if_pos hc, Finset.sup_insert, List.foldr_append]
      simp only [List.filter_nil, List.foldr_cons, List.foldr_nil]
      rw [foldr_max_init, ih]
      rw [Nat.max_comm]
      simp [Nat.max_comm]
    · rw [List.filter_cons_of_neg (by simp only [decide_eq_true_eq]; exact hc),
        if_neg hc, List.filter_nil, List.append_nil, ih]

theorem router_seed_depth (ctx : tree_context) (D : Finset Nat) (tw : Nat) :
    (router_seed ctx D tw).2 =
      Finset.sup ((Finset.range ctx.switch_table.length).filter
        (fun j => (swt ctx.switch_table j).level = 0 ∧
          ((swt ctx.switch_table j).node_bitmap ∩ D).card ≠ 0))
        (fun j => leaf_tree_depth tw
          ((swt ctx.switch_table j).node_bitmap ∩ D).card) := by
  unfold router_seed
  rw [seed_go]
  rw [foldr_max_filter_eq_sup ctx.switch_table.length
    (fun j => (swt ctx.switch_table j).level = 0 ∧
      ((swt ctx.switch_table j).node_bitmap ∩ D).card ≠ 0)]
  simp

/-- The ghost instrumentation is consistent: the uppermost merge level the
code tracks equals the maximum of the recorded merge levels. -/
def UpperInv (st : SplitState) : Prop :=
  st.upper = st.merges.foldr max 0

theorem merge_at_switch_upper (tbl : List SwitchRecord) (i j : Nat)
    (st : SplitState) (h : UpperInv st) :
    UpperInv (merge_at_switch tbl i j st) := by
  unfold merge_at_switch
  by_cases hc : (desc_scan (swt tbl j).switch_desc_index st.switch_bitmap
      none 0).2.2 > 1
  · rw [if_pos hc]
    cases hfc : (desc_scan (swt tbl j).switch_desc_index st.switch_bitmap
        none 0).2.1 with
    | none => exact h
    | some f =>
      unfold UpperInv at h ⊢
      simp only [List.foldr_cons]
      rw [← h, Nat.max_comm]
  · rw [if_neg hc]
    exact h

theorem merge_level_loop_upper (tbl : List SwitchRecord) (i : Nat) :
    ∀ (idxs : List Nat) (st : SplitState), UpperInv st →
      UpperInv (merge_level_loop tbl i idxs st) := by
  intro idxs
  induction idxs with
  | nil => intro st h; exact h
  | cons j rest ih =>
    intro st h
    show UpperInv (merge_level_loop tbl i (j :: rest) st)
    unfold merge_level_loop
    by_cases hcnt : st.scount < 2
    · rw [if_pos hcnt]
      exact h
    · rw [if_neg hcnt]
      by_cases hlv : (swt tbl j).level = i
      · rw [if_pos hlv]
        exact ih _ (merge_at_switch_upper tbl i j st h)
      · rw [if_neg hlv]
        exact ih _ h

theorem merge_fold_upper (tbl : List SwitchRecord) (n : Nat) :
    ∀ (lvls : List Nat) (st : SplitState), UpperInv st →
      UpperInv (lvls.foldl (fun st i =>
        if st.scount < 2 then st
        else merge_level_loop tbl i (List.range n) st) st) := by
  intro lvls
  induction lvls with
  | nil => intro st h; exact h
  | cons i rest ih =>
    intro st h
    rw [List.foldl_cons]
    apply ih
    by_cases hcnt : st.scount < 2
    · rw [if_pos hcnt]
      exact h
    · rw [if_neg hcnt]
      exact merge_level_loop_upper _ _ _ _ h

theorem router_merged_upper (ctx : tree_context) (D : Finset Nat) (tw : Nat) :
    UpperInv (router_merged ctx D tw) := by
  unfold router_merged
  exact merge_fold_upper ctx.switch_table ctx.switch_table.length _ _ rfl

/-- C6: in the non-degenerate topology-aware case the router's returned
depth is the highest level at which the upward merge replaced two or more
marked switches (0 when no merge occurred) plus the maximum over the leaves
overlapping the destination set of ceil(log_tw(cnt*(tw-1)+1)). -/
theorem C6_router_depth (ctx : tree_context) (_hinv : Invariants ctx)
    (D : Finset Nat) (tw : Nat) (_htw : 2 ≤ tw)
    (hdeg : ¬ router_degenerate ctx D tw = true) :
    (topology_p_split_hostlist true ctx D tw).2 =
      ((router_merged ctx D tw).merges.foldr max 0) +
        Finset.sup ((Finset.range ctx.switch_table.length).filter
          (fun j => (swt ctx.switch_table j).level = 0 ∧
            ((swt ctx.switch_table j).node_bitmap ∩ D).card ≠ 0))
          (fun j => leaf_tree_depth tw
            ((swt ctx.switch_table j).node_bitmap ∩ D).card) := by
  unfold topology_p_split_hostlist
  rw [if_neg (by simp), if_neg hdeg]
  dsimp only
  rw [router_seed_depth]
  rw [← (router_merged_upper ctx D tw)]
  exact Nat.add_comm _ _

/-- Witness for C6 at §8 scenario 2 (two marked leaves merged at the spine,
depth 1 + 1). -/
theorem C6_witness :
    (topology_p_split_hostlist true demoCtx {1, 2} 2).2 =
      ((router_merged demoCtx {1, 2} 2).merges.foldr max 0) +
        Finset.sup ((Finset.range demoCtx.switch_table.length).filter
          (fun j => (swt demoCtx.switch_table j).level = 0 ∧
            ((swt demoCtx.switch_table j).node_bitmap ∩ {1, 2}).card ≠ 0))
          (fun j => leaf_tree_depth 2
            ((swt demoCtx.switch_table j).node_bitmap ∩ {1, 2}).card) :=
  C6_router_depth demoCtx (by decide) {1, 2} 2 (by decide) (by decide)

/-! ## Proofs about the Mutator: add/remove semantics (C2, C3, C4)

The upward walks of the propagation loop are characterized through the
parent chains `anc_chain`.  The hypotheses used throughout are the
unbounded forms of the §3 structural invariants. -/

theorem swt_oob (tbl : List SwitchRecord) (i : Nat) (h : tbl.length ≤ i) :
    swt tbl i = dfltSwitch := by
  simp [swt, List.getD, List.getElem?_eq_none h]

/-- Levels strictly increase along parent links (unbounded form). -/
def StrictW (tbl : List SwitchRecord) : Prop :=
  ∀ i p, (swt tbl i).parent = some p →
    (swt tbl i).level < (swt tbl p).level

/-- All levels bounded by `L` (unbounded form). -/
def LevelLeW (tbl : List SwitchRecord) (L : Nat) : Prop :=
  ∀ i, (swt tbl i).level ≤ L

theorem strictW_of_invariants (ctx : tree_context) (h : Invariants ctx) :
    StrictW ctx.switch_table := by
  intro i p hp
  by_cases hi : i < ctx.switch_count
  · exact h.2.2.1 i hi p hp
  · rw [swt_oob _ _ (Nat.le_of_not_lt hi)] at hp
    cases hp

theorem levelLeW_of_invariants (ctx : tree_context) (h : Invariants ctx) :
    LevelLeW ctx.switch_table ctx.switch_levels := by
  intro i
  by_cases hi : i < ctx.switch_count
  · exact h.2.2.2.1 i hi
  · rw [swt_oob _ _ (Nat.le_of_not_lt hi)]
    exact Nat.zero_le _

theorem anc_chain_zero (tbl : List SwitchRecord) (A : Finset Nat) (sw : Nat) :
    anc_chain tbl A 0 sw = [] := rfl

theorem anc_chain_stop (tbl : List SwitchRecord) (A : Finset Nat) (f sw : Nat)
    (h : sw ∈ A) : anc_chain tbl A (f + 1) sw = [] := by
  conv_lhs => rw [anc_chain]
  rw [if_pos h]

theorem anc_chain_root (tbl : List SwitchRecord) (A : Finset Nat) (f sw : Nat)
    (h : sw ∉ A) (hp : (swt tbl sw).parent = none) :
    anc_chain tbl A (f + 1) sw = [sw] := by
  conv_lhs => rw [anc_chain]
  rw [if_neg h, hp]

theorem anc_chain_step (tbl : List SwitchRecord) (A : Finset Nat) (f sw p : Nat)
    (h : sw ∉ A) (hp : (swt tbl sw).parent = some p) :
    anc_chain tbl A (f + 1) sw = sw :: anc_chain tbl A f p := by
  conv_lhs => rw [anc_chain]
  rw [if_neg h, hp]

theorem anc_chain_self (tbl : List SwitchRecord) (f sw : Nat) :
    sw ∈ anc_chain tbl ∅ (f + 1) sw := by
  cases hp : (swt tbl sw).parent with
  | none =>
    rw [anc_chain_root _ _ _ _ (Finset.not_mem_empty sw) hp]
    exact List.mem_singleton_self _
  | some p =>
    rw [anc_chain_step _ _ _ _ _ (Finset.not_mem_empty sw) hp]
    exact List.mem_cons_self _ _

theorem anc_chain_level_le (tbl : List SwitchRecord) (hS : StrictW tbl)
    (A : Finset Nat) :
    ∀ (f : Nat) (sw : Nat), ∀ s ∈ anc_chain tbl A f sw,
      (swt tbl sw).level ≤ (swt tbl s).level := by
  intro f
  induction f with
  | zero => intro sw s hs; rw [anc_chain_zero] at hs; cases hs
  | succ f ih =>
    intro sw s hs
    by_cases hsw : sw ∈ A
    · rw [anc_chain_stop _ _ _ _ hsw] at hs
      cases hs
    · cases hp : (swt tbl sw).parent with
      | none =>
        rw [anc_chain_root _ _ _ _ hsw hp] at hs
        rw [List.mem_singleton.mp hs]
      | some p =>
        rw [anc_chain_step _ _ _ _ _ hsw hp] at hs
        rcases List.mem_cons.mp hs with rfl | hs'
        · exact Nat.le_refl _
        · exact Nat.le_trans (Nat.le_of_lt (hS sw p hp)) (ih p s hs')

theorem anc_chain_head_lt (tbl : List SwitchRecord) (hS : StrictW tbl)
    (A : Finset Nat) (f sw : Nat) :
    ∀ s ∈ anc_chain tbl A f sw, s ≠ sw →
      (swt tbl sw).level < (swt tbl s).level := by
  match f with
  | 0 => intro s hs; rw [anc_chain_zero] at hs; cases hs
  | f + 1 =>
    intro s hs hne
    by_cases hsw : sw ∈ A
    · rw [anc_chain_stop _ _ _ _ hsw] at hs
      cases hs
    · cases hp : (swt tbl sw).parent with
      | none =>
        rw [anc_chain_root _ _ _ _ hsw hp] at hs
        exact absurd (List.mem_singleton.mp hs) hne
      | some p =>
        rw [anc_chain_step _ _ _ _ _ hsw hp] at hs
        rcases List.mem_cons.mp hs with rfl | hs'
        · exact absurd rfl hne
        · exact Nat.lt_of_lt_of_le (hS sw p hp)
            (anc_chain_level_le tbl hS A f p s hs')

theorem anc_chain_not_self_parent (tbl : List SwitchRecord) (hS : StrictW tbl)
    (A : Finset Nat) (f sw p : Nat) (hp : (swt tbl sw).parent = some p) :
    sw ∉ anc_chain tbl A f p := by
  intro hmem
  have hlt := hS sw p hp
  have hle := anc_chain_level_le tbl hS A f p sw hmem
  omega

theorem anc_chain_closed (tbl : List SwitchRecord) (hS : StrictW tbl)
    (L : Nat) (hB : LevelLeW tbl L) :
    ∀ (f : Nat) (sw : Nat), L + 1 ≤ f + (swt tbl sw).level →
      ∀ s ∈ anc_chain tbl ∅ f sw, ∀ p, (swt tbl s).parent = some p →
        p ∈ anc_chain tbl ∅ f sw := by
  intro f
  induction f with
  | zero =>
    intro sw hf s hs
    have := hB sw
    omega
  | succ f ih =>
    intro sw hf s hs p hp
    cases hq : (swt tbl sw).parent with
    | none =>
      rw [anc_chain_root _ _ _ _ (Finset.not_mem_empty sw) hq] at hs ⊢
      rw [List.mem_singleton.mp hs] at hp
      rw [hq] at hp
      cases hp
    | some q =>
      rw [anc_chain_step _ _ _ _ _ (Finset.not_mem_empty sw) hq] at hs ⊢
      have hfq : L + 1 ≤ f + (swt tbl q).level := by
        have h1 := hS sw q hq
        omega
      rcases List.mem_cons.mp hs with rfl | hs'
      · rw [hq] at hp
        cases hp
        cases f with
        | zero =>
          have := hB p
          have := hS s p hq
          omega
        | succ f' => exact List.mem_cons_of_mem _ (anc_chain_self tbl f' p)
      · exact List.mem_cons_of_mem _ (ih q hfq s hs' p hp)

theorem anc_chain_pred (tbl : List SwitchRecord) :
    ∀ (f : Nat) (sw : Nat), ∀ s ∈ anc_chain tbl ∅ f sw, s ≠ sw →
      ∃ c ∈ anc_chain tbl ∅ f sw, (swt tbl c).parent = some s := by
  intro f
  induction f with
  | zero => intro sw s hs; rw [anc_chain_zero] at hs; cases hs
  | succ f ih =>
    intro sw s hs hne
    cases hq : (swt tbl sw).parent with
    | none =>
      rw [anc_chain_root _ _ _ _ (Finset.not_mem_empty sw) hq] at hs
      exact absurd (List.mem_singleton.mp hs) hne
    | some q =>
      rw [anc_chain_step _ _ _ _ _ (Finset.not_mem_empty sw) hq] at hs ⊢
      rcases List.mem_cons.mp hs with rfl | hs'
      · exact absurd rfl hne
      · by_cases hsq : s = q
        · subst hsq
          exact ⟨sw, List.mem_cons_self _ _, hq⟩
        · rcases ih q s hs' hsq with ⟨c, hc, hcp⟩
          exact ⟨c, List.mem_cons_of_mem _ hc, hcp⟩

theorem anc_chain_stop_subset (tbl : List SwitchRecord) (A : Finset Nat) :
    ∀ (f : Nat) (sw : Nat), ∀ s ∈ anc_chain tbl A f sw,
      s ∈ anc_chain tbl ∅ f sw := by
  intro f
  induction f with
  | zero => intro sw s hs; rw [anc_chain_zero] at hs; cases hs
  | succ f ih =>
    intro sw s hs
    by_cases hsw : sw ∈ A
    · rw [anc_chain_stop _ _ _ _ hsw] at hs
      cases hs
    · cases hq : (swt tbl sw).parent with
      | none =>
        rw [anc_chain_root _ _ _ _ hsw hq] at hs
        rw [anc_chain_root _ _ _ _ (Finset.not_mem_empty sw) hq]
        exact hs
      | some q =>
        rw [anc_chain_step _ _ _ _ _ hsw hq] at hs
        rw [anc_chain_step _ _ _ _ _ (Finset.not_mem_empty sw) hq]
        rcases List.mem_cons.mp hs with rfl | hs'
        · exact List.mem_cons_self _ _
        · exact List.mem_cons_of_mem _ (ih q s hs')

theorem anc_chain_stop_disjoint (tbl : List SwitchRecord) (A : Finset Nat) :
    ∀ (f : Nat) (sw : Nat), ∀ s ∈ anc_chain tbl A f sw, s ∉ A := by
  intro f
  induction f with
  | zero => intro sw s hs; rw [anc_chain_zero] at hs; cases hs
  | succ f ih =>
    intro sw s hs
    by_cases hsw : sw ∈ A
    · rw [anc_chain_stop _ _ _ _ hsw] at hs
      cases hs
    · cases hq : (swt tbl sw).parent with
      | none =>
        rw [anc_chain_root _ _ _ _ hsw hq] at hs
        rw [List.mem_singleton.mp hs]
        exact hsw
      | some q =>
        rw [anc_chain_step _ _ _ _ _ hsw hq] at hs
        rcases List.mem_cons.mp hs with rfl | hs'
        · exact hsw
        · exact ih q s hs'

theorem anc_chain_all_in_closed (tbl : List SwitchRecord) (A : Finset Nat)
    (hcl : ∀ a ∈ A, ∀ p, (swt tbl a).parent = some p → p ∈ A) :
    ∀ (f : Nat) (sw : Nat), sw ∈ A → ∀ s ∈ anc_chain tbl ∅ f sw, s ∈ A := by
  intro f
  induction f with
  | zero => intro sw _ s hs; rw [anc_chain_zero] at hs; cases hs
  | succ f ih =>
    intro sw hsw s hs
    cases hq : (swt tbl sw).parent with
    | none =>
      rw [anc_chain_root _ _ _ _ (Finset.not_mem_empty sw) hq] at hs
      rw [List.mem_singleton.mp hs]
      exact hsw
    | some q =>
      rw [anc_chain_step _ _ _ _ _ (Finset.not_mem_empty sw) hq] at hs
      rcases List.mem_cons.mp hs with rfl | hs'
      · exact hsw
      · exact ih q (hcl sw hsw q hq) s hs'

theorem anc_chain_split (tbl : List SwitchRecord) (A : Finset Nat)
    (hcl : ∀ a ∈ A, ∀ p, (swt tbl a).parent = some p → p ∈ A) :
    ∀ (f : Nat) (sw : Nat), ∀ s ∈ anc_chain tbl ∅ f sw,
      s ∈ anc_chain tbl A f sw ∨ s ∈ A := by
  intro f
  induction f with
  | zero => intro sw s hs; rw [anc_chain_zero] at hs; cases hs
  | succ f ih =>
    intro sw s hs
    by_cases hsw : sw ∈ A
    · exact Or.inr (anc_chain_all_in_closed tbl A hcl (f + 1) sw hsw s hs)
    · cases hq : (swt tbl sw).parent with
      | none =>
        rw [anc_chain_root _ _ _ _ (Finset.not_mem_empty sw) hq] at hs
        rw [anc_chain_root _ _ _ _ hsw hq]
        exact Or.inl hs
      | some q =>
        rw [anc_chain_step _ _ _ _ _ (Finset.not_mem_empty sw) hq] at hs
        rw [anc_chain_step _ _ _ _ _ hsw hq]
        rcases List.mem_cons.mp hs with rfl | hs'
        · exact Or.inl (List.mem_cons_self _ _)
        · rcases ih q s hs' with h | h
          · exact Or.inl (List.mem_cons_of_mem _ h)
          · exact Or.inr h

theorem anc_chain_mem_lt (tbl : List SwitchRecord)
    (hidx : ∀ i p, (swt tbl i).parent = some p → p < tbl.length)
    (A : Finset Nat) :
    ∀ (f : Nat) (sw : Nat), sw < tbl.length →
      ∀ s ∈ anc_chain tbl A f sw, s < tbl.length := by
  intro f
  induction f with
  | zero => intro sw _ s hs; rw [anc_chain_zero] at hs; cases hs
  | succ f ih =>
    intro sw hsw s hs
    by_cases hswa : sw ∈ A
    · rw [anc_chain_stop _ _ _ _ hswa] at hs
      cases hs
    · cases hq : (swt tbl sw).parent with
      | none =>
        rw [anc_chain_root _ _ _ _ hswa hq] at hs
        rw [List.mem_singleton.mp hs]
        exact hsw
      | some q =>
        rw [anc_chain_step _ _ _ _ _ hswa hq] at hs
        rcases List.mem_cons.mp hs with rfl | hs'
        · exact hsw
        · exact ih q (hidx sw q hq) s hs'

theorem anc_chain_congr (tbl tbl2 : List SwitchRecord)
    (hpar : ∀ j, (swt tbl2 j).parent = (swt tbl j).parent) (A : Finset Nat) :
    ∀ (f : Nat) (sw : Nat), anc_chain tbl2 A f sw = anc_chain tbl A f sw := by
  intro f
  induction f with
  | zero => intro sw; rfl
  | succ f ih =>
    intro sw
    by_cases hsw : sw ∈ A
    · rw [anc_chain_stop _ _ _ _ hsw, anc_chain_stop _ _ _ _ hsw]
    · cases hq : (swt tbl sw).parent with
      | none =>
        rw [anc_chain_root _ _ _ _ hsw hq,
          anc_chain_root _ _ _ _ hsw ((hpar sw).trans hq)]
      | some q =>
        rw [anc_chain_step _ _ _ _ _ hsw hq,
          anc_chain_step _ _ _ _ _ hsw ((hpar sw).trans hq), ih q]

theorem walk_upd_spec (X : Nat) (d : Bool) (names : List String)
    (tbl : List SwitchRecord) (sw : Nat) :
    structOf (walk_upd X d names tbl sw) = structOf (swt tbl sw) ∧
    (walk_upd X d names tbl sw).node_bitmap =
      (if d then insert X (swt tbl sw).node_bitmap
       else (swt tbl sw).node_bitmap.erase X) ∧
    (walk_upd X d names tbl sw).nodes =
      bitmap2node_name names
        (if d then insert X (swt tbl sw).node_bitmap
         else (swt tbl sw).node_bitmap.erase X) ∧
    (walk_upd X d names tbl sw).switches =
      switch_names_string tbl (swt tbl sw).switch_index := by
  cases d <;> exact ⟨rfl, rfl, rfl, rfl⟩

theorem switch_names_string_congr (tbl tbl2 : List SwitchRecord)
    (hn : ∀ k, (swt tbl2 k).name = (swt tbl k).name) (c : List Nat) :
    switch_names_string tbl2 c = switch_names_string tbl c := by
  unfold switch_names_string
  congr 1
  exact List.map_congr_left (fun k _ => hn k)

theorem add_rm_walk_zero (X : Nat) (d : Bool) (names : List String)
    (sw : Nat) (tbl : List SwitchRecord) (added : Finset Nat) :
    add_rm_walk X d names 0 sw tbl added = (tbl, added) := rfl

theorem add_rm_walk_stop (X : Nat) (d : Bool) (names : List String)
    (f sw : Nat) (tbl : List SwitchRecord) (added : Finset Nat)
    (h : sw ∈ added) :
    add_rm_walk X d names (f + 1) sw tbl added = (tbl, added) := by
  conv_lhs => rw [add_rm_walk]
  rw [if_pos h]

theorem add_rm_walk_root (X : Nat) (d : Bool) (names : List String)
    (f sw : Nat) (tbl : List SwitchRecord) (added : Finset Nat)
    (h : sw ∉ added) (hp : (swt tbl sw).parent = none) :
    add_rm_walk X d names (f + 1) sw tbl added =
      (tbl.set sw (walk_upd X d names tbl sw),
        if d then insert sw added else added) := by
  conv_lhs => rw [add_rm_walk]
  rw [if_neg h]
  dsimp only
  rw [hp]

theorem add_rm_walk_step (X : Nat) (d : Bool) (names : List String)
    (f sw p : Nat) (tbl : List SwitchRecord) (added : Finset Nat)
    (h : sw ∉ added) (hp : (swt tbl sw).parent = some p) :
    add_rm_walk X d names (f + 1) sw tbl added =
      add_rm_walk X d names f p (tbl.set sw (walk_upd X d names tbl sw))
        (if d then insert sw added else added) := by
  conv_lhs => rw [add_rm_walk]
  rw [if_neg h]
  dsimp only
  rw [hp]

theorem structOf_parts {r s : SwitchRecord} (h : structOf r = structOf s) :
    r.name = s.name ∧ r.level = s.level ∧ r.parent = s.parent ∧
      r.switch_index = s.switch_index ∧
      r.switch_desc_index = s.switch_desc_index ∧ r.link_speed = s.link_speed := by
  unfold structOf at h
  simp only [Prod.mk.injEq] at h
  exact h

theorem render_empty (names : List String) :
    bitmap2node_name names ∅ = ("") := rfl

theorem sns_nil (tbl : List SwitchRecord) :
    switch_names_string tbl [] = ("") := rfl

theorem set_walk_upd_struct (X : Nat) (d : Bool) (names : List String)
    (tbl : List SwitchRecord) (sw : Nat) :
    ∀ j, structOf (swt (tbl.set sw (walk_upd X d names tbl sw)) j) =
      structOf (swt tbl j) := by
  intro j
  by_cases hlt : sw < tbl.length
  · by_cases hj : sw = j
    · subst hj
      rw [swt_set_self _ _ _ hlt]
      exact (walk_upd_spec X d names tbl sw).1
    · rw [swt_set_ne _ _ _ _ hj]
  · rw [List.set_eq_of_length_le (Nat.le_of_not_lt hlt)]

theorem strictW_congr (tbl tbl2 : List SwitchRecord)
    (h : ∀ j, structOf (swt tbl2 j) = structOf (swt tbl j))
    (hS : StrictW tbl) : StrictW tbl2 := by
  intro i p hp
  have hi := structOf_parts (h i)
  have hpp := structOf_parts (h p)
  rw [hi.2.1, hpp.2.1]
  apply hS
  rw [← hi.2.2.1]
  exact hp

theorem swt_set_at (tbl : List SwitchRecord) (sw : Nat) (r : SwitchRecord)
    (hlt : sw < tbl.length) : swt (tbl.set sw r) sw = r :=
  swt_set_self tbl sw r hlt

theorem add_rm_walk_rm_effect (X : Nat) (names : List String) :
    ∀ (f : Nat) (sw : Nat) (tbl : List SwitchRecord) (added : Finset Nat),
      StrictW tbl →
      (add_rm_walk X false names f sw tbl added).2 = added ∧
      (add_rm_walk X false names f sw tbl added).1.length = tbl.length ∧
      (∀ j, structOf (swt (add_rm_walk X false names f sw tbl added).1 j) =
        structOf (swt tbl j)) ∧
      (∀ j, j ∉ anc_chain tbl added f sw →
        swt (add_rm_walk X false names f sw tbl added).1 j = swt tbl j) ∧
      (∀ j ∈ anc_chain tbl added f sw,
        (swt (add_rm_walk X false names f sw tbl added).1 j).node_bitmap =
          (swt tbl j).node_bitmap.erase X ∧
        (swt (add_rm_walk X false names f sw tbl added).1 j).nodes =
          bitmap2node_name names ((swt tbl j).node_bitmap.erase X) ∧
        (swt (add_rm_walk X false names f sw tbl added).1 j).switches =
          switch_names_string tbl (swt tbl j).switch_index) := by
  intro f
  induction f with
  | zero =>
    intro sw tbl added _
    rw [add_rm_walk_zero]
    refine ⟨rfl, rfl, fun j => rfl, fun j _ => rfl, fun j hj => ?_⟩
    rw [anc_chain_zero] at hj
    cases hj
  | succ f ih =>
    intro sw tbl added hS
    by_cases hsw : sw ∈ added
    · rw [add_rm_walk_stop _ _ _ _ _ _ _ hsw]
      refine ⟨rfl, rfl, fun j => rfl, fun j _ => rfl, fun j hj => ?_⟩
      rw [anc_chain_stop _ _ _ _ hsw] at hj
      cases hj
    · have hstruct1 := set_walk_upd_struct X false names tbl sw
      have hS1 : StrictW (tbl.set sw (walk_upd X false names tbl sw)) :=
        strictW_congr _ _ hstruct1 hS
      have hupd := walk_upd_spec X false names tbl sw
      have hswt1 : ∀ j, j ≠ sw →
          swt (tbl.set sw (walk_upd X false names tbl sw)) j = swt tbl j := by
        intro j hj
        exact swt_set_ne _ _ _ _ (fun h => hj h.symm)
      have hswme : (swt (tbl.set sw (walk_upd X false names tbl sw)) sw).node_bitmap =
            (swt tbl sw).node_bitmap.erase X ∧
          (swt (tbl.set sw (walk_upd X false names tbl sw)) sw).nodes =
            bitmap2node_name names ((swt tbl sw).node_bitmap.erase X) ∧
          (swt (tbl.set sw (walk_upd X false names tbl sw)) sw).switches =
            switch_names_string tbl (swt tbl sw).switch_index := by
        by_cases hlt : sw < tbl.length
        · rw [swt_set_at _ _ _ hlt]
          refine ⟨?_, ?_, ?_⟩
          · rw [hupd.2.1]
            rfl
          · rw [hupd.2.2.1]
            rfl
          · exact hupd.2.2.2
        · rw [List.set_eq_of_length_le (Nat.le_of_not_lt hlt)]
          rw [swt_oob _ _ (Nat.le_of_not_lt hlt)]
          refine ⟨rfl, rfl, rfl⟩
      cases hp : (swt tbl sw).parent with
      | none =>
        rw [add_rm_walk_root _ _ _ _ _ _ _ hsw hp,
          anc_chain_root _ _ _ _ hsw hp]
        rw [if_neg Bool.false_ne_true]
        refine ⟨rfl, List.length_set _ _ _, hstruct1, ?_, ?_⟩
        · intro j hj
          exact hswt1 j (fun h => hj (h ▸ List.mem_singleton_self sw))
        · intro j hj
          rw [List.mem_singleton.mp hj]
          exact hswme
      | some p =>
        rw [add_rm_walk_step _ _ _ _ _ _ _ _ hsw hp,
          anc_chain_step _ _ _ _ _ hsw hp]
        rw [if_neg Bool.false_ne_true]
        obtain ⟨ih1, ih2, ih3, ih4, ih5⟩ :=
          ih p (tbl.set sw (walk_upd X false names tbl sw)) added hS1
        have hchain :
            anc_chain (tbl.set sw (walk_upd X false names tbl sw)) added f p =
              anc_chain tbl added f p :=
          anc_chain_congr _ _
            (fun j => (structOf_parts (hstruct1 j)).2.2.1) added f p
        rw [hchain] at ih4 ih5
        have hswnot : sw ∉ anc_chain tbl added f p :=
          anc_chain_not_self_parent tbl hS added f sw p hp
        refine ⟨ih1, ih2.trans (List.length_set _ _ _),
          fun j => (ih3 j).trans (hstruct1 j), ?_, ?_⟩
        · intro j hj
          have hjne : j ≠ sw := fun h => hj (h ▸ List.mem_cons_self _ _)
          have hjnc : j ∉ anc_chain tbl added f p :=
            fun h => hj (List.mem_cons_of_mem _ h)
          exact (ih4 j hjnc).trans (hswt1 j hjne)
        · intro j hj
          rcases List.mem_cons.mp hj with rfl | hj'
          · have := ih4 j hswnot
            rw [this]
            exact hswme
          · have hjne : j ≠ sw := by
              intro h
              rw [h] at hj'
              exact hswnot hj'
            obtain ⟨hb, hn, hw⟩ := ih5 j hj'
            rw [hswt1 j hjne] at hb hn
            refine ⟨hb, hn, ?_⟩
            rw [hw]
            have hnames : ∀ k,
                (swt (tbl.set sw (walk_upd X false names tbl sw)) k).name =
                  (swt tbl k).name :=
              fun k => (structOf_parts (hstruct1 k)).1
            rw [switch_names_string_congr _ _ hnames]
            rw [(structOf_parts (hstruct1 j)).2.2.2.1]

theorem add_rm_walk_add_effect (X : Nat) (names : List String) :
    ∀ (f : Nat) (sw : Nat) (tbl : List SwitchRecord) (added : Finset Nat),
      StrictW tbl →
      (∀ i p, (swt tbl i).parent = some p → p < tbl.length) →
      sw < tbl.length →
      (∀ a ∈ added, (swt tbl a).level < (swt tbl sw).level) →
      (add_rm_walk X true names f sw tbl added).2 =
        added ∪ (anc_chain tbl ∅ f sw).toFinset ∧
      (add_rm_walk X true names f sw tbl added).1.length = tbl.length ∧
      (∀ j, structOf (swt (add_rm_walk X true names f sw tbl added).1 j) =
        structOf (swt tbl j)) ∧
      (∀ j, j ∉ anc_chain tbl ∅ f sw →
        swt (add_rm_walk X true names f sw tbl added).1 j = swt tbl j) ∧
      (∀ j ∈ anc_chain tbl ∅ f sw,
        (swt (add_rm_walk X true names f sw tbl added).1 j).node_bitmap =
          insert X (swt tbl j).node_bitmap ∧
        (swt (add_rm_walk X true names f sw tbl added).1 j).nodes =
          bitmap2node_name names (insert X (swt tbl j).node_bitmap) ∧
        (swt (add_rm_walk X true names f sw tbl added).1 j).switches =
          switch_names_string tbl (swt tbl j).switch_index) := by
  intro f
  induction f with
  | zero =>
    intro sw tbl added _ _ _ _
    rw [add_rm_walk_zero]
    refine ⟨by simp [anc_chain_zero], rfl, fun j => rfl, fun j _ => rfl,
      fun j hj => ?_⟩
    rw [anc_chain_zero] at hj
    cases hj
  | succ f ih =>
    intro sw tbl added hS hidx hswlt hA
    have hsw : sw ∉ added := fun h => absurd (hA sw h) (Nat.lt_irrefl _)
    have hstruct1 := set_walk_upd_struct X true names tbl sw
    have hS1 : StrictW (tbl.set sw (walk_upd X true names tbl sw)) :=
      strictW_congr _ _ hstruct1 hS
    have hidx1 : ∀ i p,
        (swt (tbl.set sw (walk_upd X true names tbl sw)) i).parent = some p →
          p < (tbl.set sw (walk_upd X true names tbl sw)).length := by
      intro i p hp
      rw [List.length_set]
      exact hidx i p ((structOf_parts (hstruct1 i)).2.2.1 ▸ hp)
    have hupd := walk_upd_spec X true names tbl sw
    have hswt1 : ∀ j, j ≠ sw →
        swt (tbl.set sw (walk_upd X true names tbl sw)) j = swt tbl j := by
      intro j hj
      exact swt_set_ne _ _ _ _ (fun h => hj h.symm)
    have hswme :
        (swt (tbl.set sw (walk_upd X true names tbl sw)) sw).node_bitmap =
          insert X (swt tbl sw).node_bitmap ∧
        (swt (tbl.set sw (walk_upd X true names tbl sw)) sw).nodes =
          bitmap2node_name names (insert X (swt tbl sw).node_bitmap) ∧
        (swt (tbl.set sw (walk_upd X true names tbl sw)) sw).switches =
          switch_names_string tbl (swt tbl sw).switch_index := by
      rw [swt_set_at _ _ _ hswlt]
      refine ⟨?_, ?_, hupd.2.2.2⟩
      · rw [hupd.2.1]
        rfl
      · rw [hupd.2.2.1]
        rfl
    cases hp : (swt tbl sw).parent with
    | none =>
      rw [add_rm_walk_root _ _ _ _ _ _ _ hsw hp,
        anc_chain_root _ _ _ _ (Finset.not_mem_empty sw) hp]
      rw [if_pos rfl]
      refine ⟨?_, List.length_set _ _ _, hstruct1, ?_, ?_⟩
      · apply Finset.ext
        intro a
        simp [Finset.mem_insert, Finset.mem_union]
        tauto
      · intro j hj
        exact hswt1 j (fun h => hj (h ▸ List.mem_singleton_self sw))
      · intro j hj
        rw [List.mem_singleton.mp hj]
        exact hswme
    | some p =>
      rw [add_rm_walk_step _ _ _ _ _ _ _ _ hsw hp,
        anc_chain_step _ _ _ _ _ (Finset.not_mem_empty sw) hp]
      rw [if_pos rfl]
      have hplt : p < tbl.length := hidx sw p hp
      have hplt1 : p < (tbl.set sw (walk_upd X true names tbl sw)).length := by
        rw [List.length_set]
        exact hplt
      have hA1 : ∀ a ∈ insert sw added,
          (swt (tbl.set sw (walk_upd X true names tbl sw)) a).level <
            (swt (tbl.set sw (walk_upd X true names tbl sw)) p).level := by
        intro a ha
        rw [(structOf_parts (hstruct1 a)).2.1, (structOf_parts (hstruct1 p)).2.1]
        rcases Finset.mem_insert.mp ha with rfl | ha'
        · exact hS a p hp
        · exact Nat.lt_trans (hA a ha') (hS sw p hp)
      obtain ⟨ih1, ih2, ih3, ih4, ih5⟩ :=
        ih p (tbl.set sw (walk_upd X true names tbl sw)) (insert sw added)
          hS1 hidx1 hplt1 hA1
      have hchain :
          anc_chain (tbl.set sw (walk_upd X true names tbl sw)) ∅ f p =
            anc_chain tbl ∅ f p :=
        anc_chain_congr _ _
          (fun j => (structOf_parts (hstruct1 j)).2.2.1) ∅ f p
      rw [hchain] at ih1 ih4 ih5
      have hswnot : sw ∉ anc_chain tbl ∅ f p :=
        anc_chain_not_self_parent tbl hS ∅ f sw p hp
      refine ⟨?_, ih2.trans (List.length_set _ _ _),
        fun j => (ih3 j).trans (hstruct1 j), ?_, ?_⟩
      · rw [ih1]
        apply Finset.ext
        intro a
        simp [Finset.mem_union, Finset.mem_insert]
      · intro j hj
        have hjne : j ≠ sw := fun h => hj (h ▸ List.mem_cons_self _ _)
        have hjnc : j ∉ anc_chain tbl ∅ f p :=
          fun h => hj (List.mem_cons_of_mem _ h)
        exact (ih4 j hjnc).trans (hswt1 j hjne)
      · intro j hj
        rcases List.mem_cons.mp hj with rfl | hj'
        · have := ih4 j hswnot
          rw [this]
          exact hswme
        · have hjne : j ≠ sw := by
            intro h
            rw [h] at hj'
            exact hswnot hj'
          obtain ⟨hb, hn, hw⟩ := ih5 j hj'
          rw [hswt1 j hjne] at hb hn
          refine ⟨hb, hn, ?_⟩
          rw [hw]
          have hnames : ∀ k,
              (swt (tbl.set sw (walk_upd X true names tbl sw)) k).name =
                (swt tbl k).name :=
            fun k => (structOf_parts (hstruct1 k)).1
          rw [switch_names_string_congr _ _ hnames]
          rw [(structOf_parts (hstruct1 j)).2.2.2.1]

theorem add_rm_loop_go_nil (X : Nat) (T : Option Nat) (names : List String)
    (fuel : Nat) (tbl : List SwitchRecord) (added : Finset Nat) :
    add_rm_loop_go X T names fuel [] tbl added = (tbl, added) := rfl

theorem add_rm_loop_go_cons_lv (X : Nat) (T : Option Nat) (names : List String)
    (fuel i : Nat) (rest : List Nat) (tbl : List SwitchRecord)
    (added : Finset Nat) (h : (swt tbl i).level ≠ 0) :
    add_rm_loop_go X T names fuel (i :: rest) tbl added =
      add_rm_loop_go X T names fuel rest tbl added := by
  conv_lhs => rw [add_rm_loop_go]
  rw [if_pos h]

theorem add_rm_loop_go_cons_skip (X : Nat) (T : Option Nat)
    (names : List String) (fuel i : Nat) (rest : List Nat)
    (tbl : List SwitchRecord) (added : Finset Nat)
    (hlv : ¬ (swt tbl i).level ≠ 0)
    (hskip : ((!decide (X ∈ (swt tbl i).node_bitmap)) &&
        (!decide (T = some i)) ||
      (decide (X ∈ (swt tbl i).node_bitmap) && decide (T = some i))) = true) :
    add_rm_loop_go X T names fuel (i :: rest) tbl added =
      add_rm_loop_go X T names fuel rest tbl added := by
  conv_lhs => rw [add_rm_loop_go]
  rw [if_neg hlv]
  dsimp only
  rw [if_pos hskip]

theorem add_rm_loop_go_cons_walk (X : Nat) (T : Option Nat)
    (names : List String) (fuel i : Nat) (rest : List Nat)
    (tbl : List SwitchRecord) (added : Finset Nat)
    (hlv : ¬ (swt tbl i).level ≠ 0)
    (hskip : ((!decide (X ∈ (swt tbl i).node_bitmap)) &&
        (!decide (T = some i)) ||
      (decide (X ∈ (swt tbl i).node_bitmap) && decide (T = some i))) = false) :
    add_rm_loop_go X T names fuel (i :: rest) tbl added =
      add_rm_loop_go X T names fuel rest
        (add_rm_walk X (decide (T = some i)) names fuel i tbl added).1
        (add_rm_walk X (decide (T = some i)) names fuel i tbl added).2 := by
  conv_lhs => rw [add_rm_loop_go]
  rw [if_neg hlv]
  dsimp only
  rw [hskip]
  rw [if_neg Bool.false_ne_true]

/-- The parent chain of an optional switch. -/
def opt_chain (tbl : List SwitchRecord) (F : Nat) : Option Nat → List Nat
  | none => []
  | some t => anc_chain tbl ∅ F t

/-- Whether the optional switch occurs in the index list. -/
def opt_mem (o : Option Nat) (idxs : List Nat) : Bool :=
  match o with
  | none => false
  | some t => decide (t ∈ idxs)

theorem opt_mem_cons_ne (o : Option Nat) (i : Nat) (rest : List Nat)
    (h : ∀ t, o = some t → t ≠ i) :
    opt_mem o (i :: rest) = opt_mem o rest := by
  cases o with
  | none => rfl
  | some t =>
    unfold opt_mem
    have hne := h t rfl
    simp [List.mem_cons, hne]

theorem opt_mem_cons_self (i : Nat) (rest : List Nat) :
    opt_mem (some i) (i :: rest) = true := by
  simp [opt_mem]

theorem leaf_mem_opt_chain (tbl : List SwitchRecord) (hS : StrictW tbl)
    (F : Nat) (o : Option Nat) (ho : ∀ t, o = some t → (swt tbl t).level = 0)
    (i : Nat) (hi : (swt tbl i).level = 0) :
    i ∈ opt_chain tbl (F + 1) o ↔ o = some i := by
  cases o with
  | none => simp [opt_chain]
  | some t =>
    unfold opt_chain
    constructor
    · intro hmem
      by_cases hit : i = t
      · rw [hit]
      · have := anc_chain_head_lt tbl hS ∅ (F + 1) t i hmem hit
        rw [ho t rfl, hi] at this
        omega
    · intro h
      cases h
      exact anc_chain_self tbl F i

theorem add_rm_loop_go_id (X : Nat) (T : Option Nat) (names : List String)
    (fuel : Nat) :
    ∀ (idxs : List Nat) (tbl : List SwitchRecord) (added : Finset Nat),
      (∀ i, (swt tbl i).level = 0 →
        (X ∈ (swt tbl i).node_bitmap ↔ T = some i)) →
      add_rm_loop_go X T names fuel idxs tbl added = (tbl, added) := by
  intro idxs
  induction idxs with
  | nil => intro tbl added _; rfl
  | cons i rest ih =>
    intro tbl added hskip
    by_cases hlv : (swt tbl i).level ≠ 0
    · rw [add_rm_loop_go_cons_lv _ _ _ _ _ _ _ _ hlv]
      exact ih tbl added hskip
    · have hiff := hskip i (Nat.eq_zero_of_not_pos
        (fun h => hlv (Nat.pos_iff_ne_zero.mp h)))
      have hdec : decide (X ∈ (swt tbl i).node_bitmap) = decide (T = some i) := by
        exact decide_eq_decide.mpr hiff
      rw [add_rm_loop_go_cons_skip _ _ _ _ _ _ _ _ hlv (by
        rw [hdec]
        cases hd : decide (T = some i) <;> rfl)]
      exact ih tbl added hskip

theorem opt_mem_false_of_cons (o : Option Nat) (i : Nat) (rest : List Nat)
    (h : opt_mem o (i :: rest) = false) : opt_mem o rest = false := by
  cases o with
  | none => rfl
  | some t =>
    unfold opt_mem at h ⊢
    simp only [decide_eq_false_iff_not, List.mem_cons] at h ⊢
    exact fun hm => h (Or.inr hm)

theorem add_rm_loop_go_char (tbl0 : List SwitchRecord) (L X : Nat)
    (names : List String) (T l0 : Option Nat)
    (hS0 : StrictW tbl0) (hB0 : LevelLeW tbl0 L)
    (hidx0 : ∀ i p, (swt tbl0 i).parent = some p → p < tbl0.length)
    (hT : ∀ t, T = some t → t < tbl0.length ∧ (swt tbl0 t).level = 0)
    (hl0 : ∀ l, l0 = some l → l < tbl0.length ∧ (swt tbl0 l).level = 0)
    (hTl : T ≠ l0) :
    ∀ (idxs : List Nat) (tbl : List SwitchRecord) (added : Finset Nat)
      (aT aL : Bool),
      idxs.Nodup →
      (aT = true → opt_mem T idxs = false) →
      (aL = true → opt_mem l0 idxs = false) →
      tbl.length = tbl0.length →
      (∀ j, structOf (swt tbl j) = structOf (swt tbl0 j)) →
      (∀ s, X ∈ (swt tbl s).node_bitmap ↔
        ((aT = true ∧ s ∈ opt_chain tbl0 (L + 1) T) ∨
         (aL = false ∧ s ∈ opt_chain tbl0 (L + 1) l0))) →
      (∀ y, y ≠ X → ∀ s,
        (y ∈ (swt tbl s).node_bitmap ↔ y ∈ (swt tbl0 s).node_bitmap)) →
      (added = if aT then (opt_chain tbl0 (L + 1) T).toFinset else ∅) →
      (∀ s, (swt tbl s).nodes =
          bitmap2node_name names (swt tbl s).node_bitmap ∧
        (swt tbl s).switches =
          switch_names_string tbl0 (swt tbl0 s).switch_index) →
      ((add_rm_loop_go X T names (L + 1) idxs tbl added).1.length =
          tbl0.length ∧
       (∀ j, structOf
          (swt (add_rm_loop_go X T names (L + 1) idxs tbl added).1 j) =
          structOf (swt tbl0 j)) ∧
       (∀ s, X ∈
          (swt (add_rm_loop_go X T names (L + 1) idxs tbl added).1 s).node_bitmap
          ↔ (((aT || opt_mem T idxs) = true ∧
               s ∈ opt_chain tbl0 (L + 1) T) ∨
             ((aL || opt_mem l0 idxs) = false ∧
               s ∈ opt_chain tbl0 (L + 1) l0))) ∧
       (∀ y, y ≠ X → ∀ s,
         (y ∈ (swt (add_rm_loop_go X T names (L + 1) idxs tbl added).1 s).node_bitmap
           ↔ y ∈ (swt tbl0 s).node_bitmap)) ∧
       ((add_rm_loop_go X T names (L + 1) idxs tbl added).2 =
         if (aT || opt_mem T idxs) then (opt_chain tbl0 (L + 1) T).toFinset
         else ∅) ∧
       (∀ s, (swt (add_rm_loop_go X T names (L + 1) idxs tbl added).1 s).nodes =
          bitmap2node_name names
            (swt (add_rm_loop_go X T names (L + 1) idxs tbl added).1 s).node_bitmap ∧
        (swt (add_rm_loop_go X T names (L + 1) idxs tbl added).1 s).switches =
          switch_names_string tbl0 (swt tbl0 s).switch_index)) := by
  have hTleaf : ∀ t, T = some t → (swt tbl0 t).level = 0 :=
    fun t ht => (hT t ht).2
  have hLleaf : ∀ l, l0 = some l → (swt tbl0 l).level = 0 :=
    fun l hl => (hl0 l hl).2
  intro idxs
  induction idxs with
  | nil =>
    intro tbl added aT aL _ _ _ hlen hstruct hbit hoth hadded hstr
    rw [add_rm_loop_go_nil]
    have hoT : opt_mem T [] = false := by cases T <;> rfl
    have hoL : opt_mem l0 [] = false := by cases l0 <;> rfl
    rw [hoT, hoL, Bool.or_false, Bool.or_false]
    exact ⟨hlen, hstruct, hbit, hoth, hadded, hstr⟩
  | cons i rest ih =>
    intro tbl added aT aL hnd hmT hmL hlen hstruct hbit hoth hadded hstr
    have hndr := hnd.of_cons
    have hinotr : i ∉ rest := (List.nodup_cons.mp hnd).1
    have hlvi : (swt tbl i).level = (swt tbl0 i).level :=
      (structOf_parts (hstruct i)).2.1
    by_cases hlv0 : (swt tbl0 i).level = 0
    -- i is a leaf
    · have hlv : ¬ (swt tbl i).level ≠ 0 := by rw [hlvi]; simp [hlv0]
      have hiT : i ∈ opt_chain tbl0 (L + 1) T ↔ T = some i :=
        leaf_mem_opt_chain tbl0 hS0 L T hTleaf i hlv0
      have hiL : i ∈ opt_chain tbl0 (L + 1) l0 ↔ l0 = some i :=
        leaf_mem_opt_chain tbl0 hS0 L l0 hLleaf i hlv0
      by_cases htsome : T = some i
      -- subcase B1: i is the add target
      · have hlne : l0 ≠ some i := fun h => hTl (htsome.trans h.symm)
        have haTf : aT = false := by
          cases haT : aT with
          | false => rfl
          | true =>
            have := hmT haT
            rw [htsome] at this
            rw [opt_mem_cons_self] at this
            cases this
        have hin : ¬ X ∈ (swt tbl i).node_bitmap := by
          rw [hbit i]
          rintro (⟨h1, _⟩ | ⟨_, h2⟩)
          · rw [haTf] at h1
            cases h1
          · exact hlne (hiL.mp h2)
        have hdec_in : decide (X ∈ (swt tbl i).node_bitmap) = false :=
          decide_eq_false hin
        have hdec_add : decide (T = some i) = true := decide_eq_true htsome
        rw [add_rm_loop_go_cons_walk _ _ _ _ _ _ _ _ hlv
          (by simp [hdec_in, hdec_add])]
        rw [hdec_add]
        -- the add walk from leaf i
        have hSc : StrictW tbl := strictW_congr tbl0 tbl hstruct hS0
        have hidxc : ∀ a p, (swt tbl a).parent = some p → p < tbl.length := by
          intro a p hp
          rw [hlen]
          exact hidx0 a p ((structOf_parts (hstruct a)).2.2.1 ▸ hp)
        have hit : i < tbl.length := by
          rw [hlen]
          exact (hT i htsome).1
        have hAe : added = ∅ := by rw [hadded, haTf]; rfl
        obtain ⟨w1, w2, w3, w4, w5⟩ := add_rm_walk_add_effect X names (L + 1)
          i tbl added hSc hidxc hit (by rw [hAe]; intro a ha; cases ha)
        have hchainc : anc_chain tbl ∅ (L + 1) i =
            anc_chain tbl0 ∅ (L + 1) i :=
          anc_chain_congr _ _
            (fun j => (structOf_parts (hstruct j)).2.2.1) _ _ _
        have hchT : anc_chain tbl0 ∅ (L + 1) i = opt_chain tbl0 (L + 1) T := by
          rw [htsome]
          rfl
        rw [hchainc, hchT] at w1 w4 w5
        -- final flag computations
        have hfT : (aT || opt_mem T (i :: rest)) = (true || opt_mem T rest) := by
          rw [haTf, htsome, opt_mem_cons_self]
          rfl
        have hfL : (aL || opt_mem l0 (i :: rest)) = (aL || opt_mem l0 rest) := by
          rw [opt_mem_cons_ne l0 i rest (fun l hl => fun he => hlne (he ▸ hl))]
        rw [hfT, hfL]
        -- apply the induction hypothesis to the new state
        apply ih _ _ true aL hndr
        · intro _
          rw [htsome]
          unfold opt_mem
          simp [hinotr]
        · intro haL
          exact opt_mem_false_of_cons _ _ _ (hmL haL)
        · rw [w2, hlen]
        · intro j
          exact (w3 j).trans (hstruct j)
        · intro s
          by_cases hs : s ∈ opt_chain tbl0 (L + 1) T
          · obtain ⟨hb, _, _⟩ := w5 s hs
            rw [hb]
            simp only [Finset.mem_insert]
            constructor
            · intro _
              exact Or.inl ⟨trivial, hs⟩
            · intro _
              exact Or.inl trivial
          · rw [w4 s hs]
            rw [hbit s]
            rw [haTf]
            constructor
            · rintro (⟨h1, _⟩ | ⟨h1, h2⟩)
              · cases h1
              · exact Or.inr ⟨h1, h2⟩
            · rintro (⟨_, h2⟩ | ⟨h1, h2⟩)
              · exact absurd h2 hs
              · exact Or.inr ⟨h1, h2⟩
        · intro y hy s
          by_cases hs : s ∈ opt_chain tbl0 (L + 1) T
          · obtain ⟨hb, _, _⟩ := w5 s hs
            rw [hb]
            simp only [Finset.mem_insert]
            rw [← (hoth y hy s)]
            constructor
            · rintro (h | h)
              · exact absurd h hy
              · exact h
            · intro h
              exact Or.inr h
          · rw [w4 s hs]
            exact hoth y hy s
        · rw [w1, hAe]
          simp
        · intro s
          by_cases hs : s ∈ opt_chain tbl0 (L + 1) T
          · obtain ⟨hb, hn, hw⟩ := w5 s hs
            refine ⟨?_, ?_⟩
            · rw [hn, hb]
            · rw [hw]
              have hnames : ∀ k, (swt tbl k).name = (swt tbl0 k).name :=
                fun k => (structOf_parts (hstruct k)).1
              rw [switch_names_string_congr _ _ hnames,
                (structOf_parts (hstruct s)).2.2.2.1]
          · rw [w4 s hs]
            exact hstr s
      -- i is not the add target
      · by_cases hlsome : l0 = some i
        -- subcase B2: i is the old leaf of X
        · have haLf : aL = false := by
            cases haL : aL with
            | false => rfl
            | true =>
              have := hmL haL
              rw [hlsome] at this
              rw [opt_mem_cons_self] at this
              cases this
          have hin : X ∈ (swt tbl i).node_bitmap := by
            rw [hbit i]
            exact Or.inr ⟨haLf, hiL.mpr hlsome⟩
          have hdec_in : decide (X ∈ (swt tbl i).node_bitmap) = true :=
            decide_eq_true hin
          have hdec_add : decide (T = some i) = false :=
            decide_eq_false htsome
          rw [add_rm_loop_go_cons_walk _ _ _ _ _ _ _ _ hlv
            (by simp [hdec_in, hdec_add])]
          rw [hdec_add]
          have hSc : StrictW tbl := strictW_congr tbl0 tbl hstruct hS0
          obtain ⟨w1, w2, w3, w4, w5⟩ :=
            add_rm_walk_rm_effect X names (L + 1) i tbl added hSc
          have hchainc : anc_chain tbl added (L + 1) i =
              anc_chain tbl0 added (L + 1) i :=
            anc_chain_congr _ _
              (fun j => (structOf_parts (hstruct j)).2.2.1) _ _ _
          rw [hchainc] at w4 w5
          have hfT : (aT || opt_mem T (i :: rest)) =
              (aT || opt_mem T rest) := by
            rw [opt_mem_cons_ne T i rest (fun t ht => fun he =>
              htsome (he ▸ ht))]
          have hfL : (aL || opt_mem l0 (i :: rest)) =
              (true || opt_mem l0 rest) := by
            rw [hlsome, opt_mem_cons_self]
            simp
          rw [hfT, hfL]
          apply ih _ _ aT true hndr
          · intro haT
            exact opt_mem_false_of_cons _ _ _ (hmT haT)
          · intro _
            rw [hlsome]
            unfold opt_mem
            simp [hinotr]
          · rw [w2, hlen]
          · intro j
            exact (w3 j).trans (hstruct j)
          · intro s
            -- the new bitmap characterization after the removal walk
            have hchl : anc_chain tbl0 ∅ (L + 1) i =
                opt_chain tbl0 (L + 1) l0 := by
              rw [hlsome]
              rfl
            by_cases hs : s ∈ anc_chain tbl0 added (L + 1) i
            · obtain ⟨hb, _, _⟩ := w5 s hs
              rw [hb]
              simp only [Finset.mem_erase]
              constructor
              · rintro ⟨h1, _⟩
                exact absurd rfl h1
              · rintro (⟨h1, h2⟩ | ⟨h1, _⟩)
                · exfalso
                  cases haT : aT with
                  | false =>
                    rw [haT] at h1
                    cases h1
                  | true =>
                    rw [haT] at hadded
                    have hsadd : s ∈ added := by
                      rw [hadded]
                      exact List.mem_toFinset.mpr h2
                    exact anc_chain_stop_disjoint tbl0 added (L + 1) i s hs
                      hsadd
                · cases h1
            · rw [w4 s hs]
              rw [hbit s]
              constructor
              · rintro (⟨h1, h2⟩ | ⟨h1, h2⟩)
                · exact Or.inl ⟨h1, h2⟩
                · -- s on the old path but not on the walked part: it must be
                  -- in the stop set, i.e. aT = true and s on the add path
                  cases haT : aT with
                  | false =>
                    exfalso
                    rw [haT] at hadded
                    simp only [if_neg Bool.false_ne_true] at hadded
                    rw [hadded] at hs
                    rw [← hchl] at h2
                    exact hs h2
                  | true =>
                    rw [haT] at hadded
                    simp only [if_pos rfl] at hadded
                    rw [← hchl] at h2
                    have hclosed : ∀ a ∈ added, ∀ p,
                        (swt tbl0 a).parent = some p → p ∈ added := by
                      intro a ha p hp
                      rw [hadded] at ha ⊢
                      cases T with
                      | none =>
                        simp [opt_chain] at ha
                      | some t =>
                        unfold opt_chain at ha ⊢
                        refine List.mem_toFinset.mpr ?_
                        refine anc_chain_closed tbl0 hS0 L hB0 (L + 1) t ?_
                          a (List.mem_toFinset.mp ha) p hp
                        have := hB0 t
                        omega
                    rcases anc_chain_split tbl0 added hclosed (L + 1) i s h2
                      with hmem | hmem
                    · exact absurd hmem hs
                    · rw [hadded] at hmem
                      exact Or.inl ⟨rfl, List.mem_toFinset.mp hmem⟩
              · rintro (⟨h1, h2⟩ | ⟨h1, _⟩)
                · -- s is on the add path: it is in the stop set so not walked,
                  -- and it already carried the bit
                  exact Or.inl ⟨h1, h2⟩
                · cases h1
          · intro y hy s
            by_cases hs : s ∈ anc_chain tbl0 added (L + 1) i
            · obtain ⟨hb, _, _⟩ := w5 s hs
              rw [hb]
              simp only [Finset.mem_erase]
              rw [← (hoth y hy s)]
              constructor
              · rintro ⟨_, h⟩
                exact h
              · intro h
                exact ⟨hy, h⟩
            · rw [w4 s hs]
              exact hoth y hy s
          · rw [w1, hadded]
          · intro s
            by_cases hs : s ∈ anc_chain tbl0 added (L + 1) i
            · obtain ⟨hb, hn, hw⟩ := w5 s hs
              refine ⟨?_, ?_⟩
              · rw [hn, hb]
              · rw [hw]
                have hnames : ∀ k, (swt tbl k).name = (swt tbl0 k).name :=
                  fun k => (structOf_parts (hstruct k)).1
                rw [switch_names_string_congr _ _ hnames,
                  (structOf_parts (hstruct s)).2.2.2.1]
            · rw [w4 s hs]
              exact hstr s
        -- subcase B3: an uninvolved leaf, skipped
        · have hin : ¬ X ∈ (swt tbl i).node_bitmap := by
            rw [hbit i]
            rintro (⟨_, h2⟩ | ⟨_, h2⟩)
            · exact htsome (hiT.mp h2)
            · exact hlsome (hiL.mp h2)
          have hdec_in : decide (X ∈ (swt tbl i).node_bitmap) = false :=
            decide_eq_false hin
          have hdec_add : decide (T = some i) = false :=
            decide_eq_false htsome
          rw [add_rm_loop_go_cons_skip _ _ _ _ _ _ _ _ hlv
            (by simp [hdec_in, hdec_add])]
          have hfT : (aT || opt_mem T (i :: rest)) =
              (aT || opt_mem T rest) := by
            rw [opt_mem_cons_ne T i rest (fun t ht => fun he =>
              htsome (he ▸ ht))]
          have hfL : (aL || opt_mem l0 (i :: rest)) =
              (aL || opt_mem l0 rest) := by
            rw [opt_mem_cons_ne l0 i rest (fun l hl => fun he =>
              hlsome (he ▸ hl))]
          rw [hfT, hfL]
          exact ih _ _ aT aL hndr
            (fun haT => opt_mem_false_of_cons _ _ _ (hmT haT))
            (fun haL => opt_mem_false_of_cons _ _ _ (hmL haL))
            hlen hstruct hbit hoth hadded hstr
    -- i is not a leaf: skipped
    · have hlv : (swt tbl i).level ≠ 0 := by rw [hlvi]; exact hlv0
      rw [add_rm_loop_go_cons_lv _ _ _ _ _ _ _ _ hlv]
      have hfT : (aT || opt_mem T (i :: rest)) = (aT || opt_mem T rest) := by
        rw [opt_mem_cons_ne T i rest (fun t ht => fun he =>
          hlv0 (he ▸ hTleaf t ht))]
      have hfL : (aL || opt_mem l0 (i :: rest)) = (aL || opt_mem l0 rest) := by
        rw [opt_mem_cons_ne l0 i rest (fun l hl => fun he =>
          hlv0 (he ▸ hLleaf l hl))]
      rw [hfT, hfL]
      exact ih _ _ aT aL hndr
        (fun haT => opt_mem_false_of_cons _ _ _ (hmT haT))
        (fun haL => opt_mem_false_of_cons _ _ _ (hmL haL))
        hlen hstruct hbit hoth hadded hstr

theorem idxW_of_invariants (ctx : tree_context) (h : Invariants ctx) :
    ∀ i p, (swt ctx.switch_table i).parent = some p →
      p < ctx.switch_table.length := by
  intro i p hp
  by_cases hi : i < ctx.switch_count
  · exact (h.1 i hi).1 p (Option.mem_def.mpr hp)
  · rw [swt_oob _ _ (Nat.le_of_not_lt hi)] at hp
    simp [dfltSwitch] at hp

theorem init_bit_char (ctx : tree_context) (hinv : Invariants ctx) (X : Nat)
    (l0 : Option Nat)
    (hfound : ∀ l, l0 = some l → l < ctx.switch_count ∧
      (swt ctx.switch_table l).level = 0 ∧
      X ∈ (swt ctx.switch_table l).node_bitmap)
    (hnone : l0 = none → ∀ i, (swt ctx.switch_table i).level = 0 →
      X ∉ (swt ctx.switch_table i).node_bitmap) :
    ∀ s, X ∈ (swt ctx.switch_table s).node_bitmap ↔
      s ∈ opt_chain ctx.switch_table (ctx.switch_levels + 1) l0 := by
  obtain ⟨hIdx, hPC, hSt, hLle, hRoot, hDesc, hUn, hOne, hLev, hStr, hLC⟩ :=
    hinv
  have hS : StrictW ctx.switch_table :=
    strictW_of_invariants ctx
      ⟨hIdx, hPC, hSt, hLle, hRoot, hDesc, hUn, hOne, hLev, hStr, hLC⟩
  have hB : LevelLeW ctx.switch_table ctx.switch_levels :=
    levelLeW_of_invariants ctx
      ⟨hIdx, hPC, hSt, hLle, hRoot, hDesc, hUn, hOne, hLev, hStr, hLC⟩
  have hidx : ∀ i p, (swt ctx.switch_table i).parent = some p →
      p < ctx.switch_table.length :=
    idxW_of_invariants ctx
      ⟨hIdx, hPC, hSt, hLle, hRoot, hDesc, hUn, hOne, hLev, hStr, hLC⟩
  have hleaf : ∀ s, (swt ctx.switch_table s).level = 0 →
      (X ∈ (swt ctx.switch_table s).node_bitmap ↔
        s ∈ opt_chain ctx.switch_table (ctx.switch_levels + 1) l0) := by
    intro s hlv
    constructor
    · intro hX
      cases hl : l0 with
      | none => exact absurd hX (hnone hl s hlv)
      | some l =>
        obtain ⟨hln, hllv, hlX⟩ := hfound l hl
        by_cases hsl : s = l
        · subst hsl
          exact anc_chain_self ctx.switch_table ctx.switch_levels s
        · exfalso
          by_cases hsn : s < ctx.switch_count
          · have hdisj := hOne s hsn l hln ⟨hsl, hlv, hllv⟩
            have : X ∈ (swt ctx.switch_table s).node_bitmap ∩
                (swt ctx.switch_table l).node_bitmap :=
              Finset.mem_inter.mpr ⟨hX, hlX⟩
            rw [hdisj] at this
            exact Finset.not_mem_empty X this
          · rw [swt_oob _ _ (Nat.le_of_not_lt hsn)] at hX
            simp [dfltSwitch] at hX
    · intro hs
      have hl0leaf : ∀ t, l0 = some t → (swt ctx.switch_table t).level = 0 :=
        fun t ht => (hfound t ht).2.1
      have := (leaf_mem_opt_chain ctx.switch_table hS ctx.switch_levels l0
        hl0leaf s hlv).mp hs
      exact (hfound s this).2.2
  suffices h : ∀ M s, (swt ctx.switch_table s).level ≤ M →
      (X ∈ (swt ctx.switch_table s).node_bitmap ↔
        s ∈ opt_chain ctx.switch_table (ctx.switch_levels + 1) l0) by
    intro s
    exact h ((swt ctx.switch_table s).level) s le_rfl
  intro M
  induction M with
  | zero =>
    intro s hsM
    exact hleaf s (Nat.le_zero.mp hsM)
  | succ M ih =>
    intro s hsM
    by_cases hlv : (swt ctx.switch_table s).level = 0
    · exact hleaf s hlv
    · have hsn : s < ctx.switch_count := by
        by_contra hns
        rw [swt_oob _ _ (Nat.le_of_not_lt hns)] at hlv
        simp [dfltSwitch] at hlv
      constructor
      · intro hX
        rw [hUn s hsn hlv, foldr_union_mem] at hX
        obtain ⟨f, hf, hXf⟩ := hX
        rw [List.mem_map] at hf
        obtain ⟨c, hc, rfl⟩ := hf
        have hcn : c < ctx.switch_count := (hIdx s hsn).2.1 c hc
        have hcp : (swt ctx.switch_table c).parent = some s :=
          (hPC s hsn c hcn).mp hc
        have hclt : (swt ctx.switch_table c).level <
            (swt ctx.switch_table s).level := hS c s hcp
        have hcM : (swt ctx.switch_table c).level ≤ M := by omega
        have hcc := (ih c hcM).mp hXf
        cases hl : l0 with
        | none =>
          rw [hl] at hcc
          simp [opt_chain] at hcc
        | some l =>
          rw [hl] at hcc
          simp only [opt_chain] at hcc ⊢
          exact anc_chain_closed ctx.switch_table hS ctx.switch_levels hB
            (ctx.switch_levels + 1) l (by omega) c hcc s hcp
      · intro hs
        cases hl : l0 with
        | none =>
          rw [hl] at hs
          simp [opt_chain] at hs
        | some l =>
          rw [hl] at hs
          simp only [opt_chain] at hs
          obtain ⟨hln, hllv, hlX⟩ := hfound l hl
          have hsnel : s ≠ l := fun he => hlv (he ▸ hllv)
          obtain ⟨c, hcch, hcp⟩ := anc_chain_pred ctx.switch_table
            (ctx.switch_levels + 1) l s hs hsnel
          have hclt : (swt ctx.switch_table c).level <
              (swt ctx.switch_table s).level := hS c s hcp
          have hcM : (swt ctx.switch_table c).level ≤ M := by omega
          have hcn : c < ctx.switch_count := anc_chain_mem_lt ctx.switch_table
            hidx ∅ (ctx.switch_levels + 1) l hln c hcch
          have hXc : X ∈ (swt ctx.switch_table c).node_bitmap := by
            refine (ih c hcM).mpr ?_
            rw [hl]
            simp only [opt_chain]
            exact hcch
          rw [hUn s hsn hlv, foldr_union_mem]
          exact ⟨_, List.mem_map_of_mem _ ((hPC s hsn c hcn).mpr hcp), hXc⟩

theorem add_rm_loop_range_char (ctx : tree_context) (hinv : Invariants ctx)
    (X : Nat) (T l0 : Option Nat)
    (hT : ∀ t, T = some t → t < ctx.switch_count ∧
      (swt ctx.switch_table t).level = 0)
    (hfound : ∀ l, l0 = some l → l < ctx.switch_count ∧
      (swt ctx.switch_table l).level = 0 ∧
      X ∈ (swt ctx.switch_table l).node_bitmap)
    (hnone : l0 = none → ∀ i, (swt ctx.switch_table i).level = 0 →
      X ∉ (swt ctx.switch_table i).node_bitmap) :
    ∀ tbl2 addedF,
      add_rm_loop_go X T ctx.node_names (ctx.switch_levels + 1)
        (List.range ctx.switch_table.length) ctx.switch_table ∅ =
        (tbl2, addedF) →
      (tbl2.length = ctx.switch_table.length ∧
       (∀ j, structOf (swt tbl2 j) = structOf (swt ctx.switch_table j)) ∧
       (∀ s, X ∈ (swt tbl2 s).node_bitmap ↔
         s ∈ opt_chain ctx.switch_table (ctx.switch_levels + 1) T) ∧
       (∀ y, y ≠ X → ∀ s, (y ∈ (swt tbl2 s).node_bitmap ↔
         y ∈ (swt ctx.switch_table s).node_bitmap)) ∧
       (∀ s, (swt tbl2 s).nodes =
           bitmap2node_name ctx.node_names (swt tbl2 s).node_bitmap ∧
         (swt tbl2 s).switches =
           switch_names_string ctx.switch_table
             (swt ctx.switch_table s).switch_index)) := by
  intro tbl2 addedF hres
  have hS : StrictW ctx.switch_table := strictW_of_invariants ctx hinv
  have hB : LevelLeW ctx.switch_table ctx.switch_levels :=
    levelLeW_of_invariants ctx hinv
  have hidx : ∀ i p, (swt ctx.switch_table i).parent = some p →
      p < ctx.switch_table.length := idxW_of_invariants ctx hinv
  have hbit0 := init_bit_char ctx hinv X l0 hfound hnone
  have hstr0 : ∀ s, (swt ctx.switch_table s).nodes =
      bitmap2node_name ctx.node_names (swt ctx.switch_table s).node_bitmap ∧
      (swt ctx.switch_table s).switches =
        switch_names_string ctx.switch_table
          (swt ctx.switch_table s).switch_index := by
    intro s
    by_cases hsn : s < ctx.switch_count
    · exact hinv.2.2.2.2.2.2.2.2.2.1 s hsn
    · rw [swt_oob _ _ (Nat.le_of_not_lt hsn)]
      exact ⟨(render_empty ctx.node_names).symm,
        (sns_nil ctx.switch_table).symm⟩
  have hl0leaf : ∀ t, l0 = some t → (swt ctx.switch_table t).level = 0 :=
    fun t ht => (hfound t ht).2.1
  by_cases hTl : T = l0
  -- the loop is a no-op: every leaf's membership already matches the target
  · have hid := add_rm_loop_go_id X T ctx.node_names (ctx.switch_levels + 1)
      (List.range ctx.switch_table.length) ctx.switch_table ∅
      (by
        intro i hlv
        rw [hbit0 i]
        rw [leaf_mem_opt_chain ctx.switch_table hS ctx.switch_levels l0
          hl0leaf i hlv]
        rw [hTl])
    rw [hid] at hres
    obtain ⟨h1, _⟩ := Prod.mk.injEq .. ▸ hres
    have htbl2 : tbl2 = ctx.switch_table := by
      cases hres
      rfl
    subst htbl2
    refine ⟨rfl, fun j => rfl, ?_, fun y hy s => Iff.rfl, hstr0⟩
    intro s
    rw [hbit0 s, hTl]
  -- the target differs from the previous location: run the induction lemma
  · have hchar := add_rm_loop_go_char ctx.switch_table ctx.switch_levels X
      ctx.node_names T l0 hS hB hidx
      (fun t ht => hT t ht)
      (fun l hl => ⟨(hfound l hl).1, (hfound l hl).2.1⟩)
      hTl
      (List.range ctx.switch_table.length) ctx.switch_table ∅ false false
      (List.nodup_range _)
      (fun h => by cases h)
      (fun h => by cases h)
      rfl
      (fun j => rfl)
      (by
        intro s
        rw [hbit0 s]
        constructor
        · intro h
          exact Or.inr ⟨rfl, h⟩
        · rintro (⟨h1, _⟩ | ⟨_, h2⟩)
          · cases h1
          · exact h2)
      (fun y _ s => Iff.rfl)
      rfl
      hstr0
    rw [hres] at hchar
    obtain ⟨c1, c2, c3, c4, _, c6⟩ := hchar
    refine ⟨c1, c2, ?_, c4, c6⟩
    intro s
    rw [c3 s]
    cases hTt : T with
    | none =>
      have hoT : opt_mem none (List.range ctx.switch_table.length) = false :=
        rfl
      constructor
      · rintro (⟨h1, _⟩ | ⟨h1, h2⟩)
        · rw [Bool.false_or] at h1
          cases h1
        · cases hl : l0 with
          | none =>
            rw [hl] at h2
            simp [opt_chain] at h2
          | some l =>
            exfalso
            -- the removal flag must be true at the end: l is in range
            have hflag : (false || opt_mem l0
                (List.range ctx.switch_table.length)) = true := by
              rw [hl]
              unfold opt_mem
              simp only [Bool.false_or, decide_eq_true_eq, List.mem_range]
              exact (hfound l hl).1
            rw [hflag] at h1
            cases h1
      · intro h
        simp [opt_chain] at h
    | some t =>
      have hflagT : (false || opt_mem (some t)
          (List.range ctx.switch_table.length)) = true := by
        unfold opt_mem
        simp only [Bool.false_or, decide_eq_true_eq, List.mem_range]
        exact (hT t hTt).1
      constructor
      · rintro (⟨_, h2⟩ | ⟨h1, h2⟩)
        · exact h2
        · exfalso
          cases hl : l0 with
          | none =>
            rw [hl] at h2
            simp [opt_chain] at h2
          | some l =>
            have hflagL : (false || opt_mem l0
                (List.range ctx.switch_table.length)) = true := by
              rw [hl]
              unfold opt_mem
              simp only [Bool.false_or, decide_eq_true_eq, List.mem_range]
              exact (hfound l hl).1
            rw [hflagL] at h1
            cases h1
      · intro h
        exact Or.inl ⟨hflagT, h⟩

theorem add_rm_node_success_add (X : Nat) (u : String) (ctx : tree_context)
    (t : Nat)
    (hwalk : walk_unit_path (strtok_colon u) none ctx = some (ctx, some t))
    (htlv : (swt ctx.switch_table t).level = 0) :
    topology_p_add_rm_node X (some u) ctx =
      (true, { ctx with switch_table :=
        (add_rm_loop_go X (some t) ctx.node_names (ctx.switch_levels + 1)
          (List.range ctx.switch_table.length) ctx.switch_table ∅).1 }) := by
  unfold topology_p_add_rm_node
  dsimp only
  rw [hwalk]
  dsimp only
  rw [if_neg (by simp [htlv])]

theorem add_rm_node_remove_eq (X : Nat) (ctx : tree_context) :
    topology_p_add_rm_node X none ctx =
      (true, { ctx with switch_table :=
        (add_rm_loop_go X none ctx.node_names (ctx.switch_levels + 1)
          (List.range ctx.switch_table.length) ctx.switch_table ∅).1 }) := by
  unfold topology_p_add_rm_node
  rfl

/-- C2: after a successful mutator call adding node `X` with a unit path
resolving (without creating switches) to leaf `t`, `X`'s bit is set in the
leaf's bitmap and in every ancestor up to its root (the parent chain of
`t`); it is cleared from the previous location `l0` of `X` — every switch
of `l0`'s parent chain not shared with `t`'s chain — and the bitmap of
every switch on neither chain is unchanged. -/
theorem C2_add_propagation (ctx : tree_context) (hinv : Invariants ctx)
    (X t : Nat) (u : String) (l0 : Option Nat)
    (hwalk : walk_unit_path (strtok_colon u) none ctx = some (ctx, some t))
    (htn : t < ctx.switch_count)
    (htlv : (swt ctx.switch_table t).level = 0)
    (hfound : ∀ l, l0 = some l → l < ctx.switch_count ∧
      (swt ctx.switch_table l).level = 0 ∧
      X ∈ (swt ctx.switch_table l).node_bitmap)
    (hnone : l0 = none → ∀ i, (swt ctx.switch_table i).level = 0 →
      X ∉ (swt ctx.switch_table i).node_bitmap) :
    (topology_p_add_rm_node X (some u) ctx).1 = true ∧
    (∀ s ∈ anc_chain ctx.switch_table ∅ (ctx.switch_levels + 1) t,
      X ∈ (swt (topology_p_add_rm_node X (some u) ctx).2.switch_table
        s).node_bitmap) ∧
    (∀ s ∈ opt_chain ctx.switch_table (ctx.switch_levels + 1) l0,
      s ∉ anc_chain ctx.switch_table ∅ (ctx.switch_levels + 1) t →
      X ∉ (swt (topology_p_add_rm_node X (some u) ctx).2.switch_table
        s).node_bitmap) ∧
    (∀ s, s ∉ anc_chain ctx.switch_table ∅ (ctx.switch_levels + 1) t →
      s ∉ opt_chain ctx.switch_table (ctx.switch_levels + 1) l0 →
      (swt (topology_p_add_rm_node X (some u) ctx).2.switch_table
          s).node_bitmap =
        (swt ctx.switch_table s).node_bitmap) := by
  have heq := add_rm_node_success_add X u ctx t hwalk htlv
  have hchar := add_rm_loop_range_char ctx hinv X (some t) l0
    (fun t2 ht2 => by
      injection ht2 with h
      subst h
      exact ⟨htn, htlv⟩)
    hfound hnone
    (add_rm_loop_go X (some t) ctx.node_names (ctx.switch_levels + 1)
      (List.range ctx.switch_table.length) ctx.switch_table ∅).1
    (add_rm_loop_go X (some t) ctx.node_names (ctx.switch_levels + 1)
      (List.range ctx.switch_table.length) ctx.switch_table ∅).2
    rfl
  obtain ⟨_, _, c3, c4, _⟩ := hchar
  have hbit0 := init_bit_char ctx hinv X l0 hfound hnone
  rw [heq]
  refine ⟨rfl, ?_, ?_, ?_⟩
  · intro s hs
    exact (c3 s).mpr hs
  · intro s hsl hst
    intro hX
    exact hst ((c3 s).mp hX)
  · intro s hst hsl
    refine Finset.ext (fun y => ?_)
    by_cases hy : y = X
    · subst hy
      constructor
      · intro h
        exact absurd ((c3 s).mp h) hst
      · intro h
        exact absurd ((hbit0 s).mp h) hsl
    · exact c4 y hy s

theorem C2_witness :
    (topology_p_add_rm_node 0 (some ("spine0:leaf1")) demoCtx).1 = true ∧
    (∀ s ∈ anc_chain demoCtx.switch_table ∅ (demoCtx.switch_levels + 1) 1,
      0 ∈ (swt (topology_p_add_rm_node 0 (some ("spine0:leaf1"))
        demoCtx).2.switch_table s).node_bitmap) ∧
    (∀ s ∈ opt_chain demoCtx.switch_table (demoCtx.switch_levels + 1)
        (some 0),
      s ∉ anc_chain demoCtx.switch_table ∅ (demoCtx.switch_levels + 1) 1 →
      0 ∉ (swt (topology_p_add_rm_node 0 (some ("spine0:leaf1"))
        demoCtx).2.switch_table s).node_bitmap) ∧
    (∀ s, s ∉ anc_chain demoCtx.switch_table ∅ (demoCtx.switch_levels + 1) 1 →
      s ∉ opt_chain demoCtx.switch_table (demoCtx.switch_levels + 1)
        (some 0) →
      (swt (topology_p_add_rm_node 0 (some ("spine0:leaf1"))
          demoCtx).2.switch_table s).node_bitmap =
        (swt demoCtx.switch_table s).node_bitmap) :=
  C2_add_propagation demoCtx (by decide) 0 1 ("spine0:leaf1") (some 0)
    (by rfl) (by decide) (by decide)
    (fun l hl => by
      injection hl with h
      subst h
      exact ⟨by decide, by decide, by decide⟩)
    (fun h => Option.noConfusion h)

/-- The leaf currently holding node `X`, if any (scan in index order). -/
def find_node_leaf (ctx : tree_context) (X : Nat) : Option Nat :=
  (List.range ctx.switch_table.length).find? (fun i =>
    decide ((swt ctx.switch_table i).level = 0) &&
    decide (X ∈ (swt ctx.switch_table i).node_bitmap))

theorem find_node_leaf_found (ctx : tree_context) (X : Nat) :
    ∀ l, find_node_leaf ctx X = some l → l < ctx.switch_count ∧
      (swt ctx.switch_table l).level = 0 ∧
      X ∈ (swt ctx.switch_table l).node_bitmap := by
  intro l hl
  unfold find_node_leaf at hl
  have hp := List.find?_some hl
  have hm := List.mem_of_find?_eq_some hl
  rw [List.mem_range] at hm
  simp only [Bool.and_eq_true, decide_eq_true_eq] at hp
  exact ⟨hm, hp.1, hp.2⟩

theorem find_node_leaf_none (ctx : tree_context) (X : Nat) :
    find_node_leaf ctx X = none → ∀ i, (swt ctx.switch_table i).level = 0 →
      X ∉ (swt ctx.switch_table i).node_bitmap := by
  intro h i hlv hX
  by_cases hi : i < ctx.switch_count
  · unfold find_node_leaf at h
    rw [List.find?_eq_none] at h
    have := h i (List.mem_range.mpr hi)
    simp only [Bool.and_eq_true, decide_eq_true_eq] at this
    exact this ⟨hlv, hX⟩
  · rw [swt_oob _ _ (Nat.le_of_not_lt hi)] at hX
    simp [dfltSwitch] at hX

theorem chain_completeB_congr (tbl tbl2 : List SwitchRecord)
    (hpar : ∀ j, (swt tbl2 j).parent = (swt tbl j).parent) (f i : Nat) :
    chain_completeB tbl2 f i = chain_completeB tbl f i := by
  unfold chain_completeB
  rw [anc_chain_congr tbl tbl2 hpar ∅ f i]
  cases hgl : (anc_chain tbl ∅ f i).getLast? with
  | none => rfl
  | some r =>
    dsimp only
    rw [hpar r]

theorem foldl_max_level_congr :
    ∀ (l1 l2 : List SwitchRecord), l1.length = l2.length →
    (∀ j, (swt l1 j).level = (swt l2 j).level) → ∀ a,
    l1.foldl (fun m r => max m r.level) a =
      l2.foldl (fun m r => max m r.level) a := by
  intro l1
  induction l1 with
  | nil =>
    intro l2 hlen _ a
    cases l2 with
    | nil => rfl
    | cons s t2 => simp at hlen
  | cons r t ih =>
    intro l2 hlen hlev a
    cases l2 with
    | nil => simp at hlen
    | cons s t2 =>
      have h0 : r.level = s.level := hlev 0
      simp only [List.foldl_cons]
      rw [h0]
      exact ih t2 (by simpa using hlen) (fun j => hlev (j + 1)) _

theorem invariants_of_char (ctx : tree_context) (hinv : Invariants ctx)
    (X : Nat) (T : Option Nat)
    (hT : ∀ t, T = some t → t < ctx.switch_count ∧
      (swt ctx.switch_table t).level = 0)
    (tbl2 : List SwitchRecord)
    (c1 : tbl2.length = ctx.switch_table.length)
    (c2 : ∀ j, structOf (swt tbl2 j) = structOf (swt ctx.switch_table j))
    (c3 : ∀ s, X ∈ (swt tbl2 s).node_bitmap ↔
      s ∈ opt_chain ctx.switch_table (ctx.switch_levels + 1) T)
    (c4 : ∀ y, y ≠ X → ∀ s, (y ∈ (swt tbl2 s).node_bitmap ↔
      y ∈ (swt ctx.switch_table s).node_bitmap))
    (c6 : ∀ s, (swt tbl2 s).nodes =
        bitmap2node_name ctx.node_names (swt tbl2 s).node_bitmap ∧
      (swt tbl2 s).switches = switch_names_string ctx.switch_table
        (swt ctx.switch_table s).switch_index) :
    Invariants { ctx with switch_table := tbl2 } := by
  have hIdx := hinv.1
  have hPC := hinv.2.1
  have hSt := hinv.2.2.1
  have hLle := hinv.2.2.2.1
  have hRoot := hinv.2.2.2.2.1
  have hDesc := hinv.2.2.2.2.2.1
  have hUn := hinv.2.2.2.2.2.2.1
  have hOne := hinv.2.2.2.2.2.2.2.1
  have hLev := hinv.2.2.2.2.2.2.2.2.1
  have hLC := hinv.2.2.2.2.2.2.2.2.2.2
  have hS := strictW_of_invariants ctx hinv
  have hB := levelLeW_of_invariants ctx hinv
  have hidx := idxW_of_invariants ctx hinv
  have hname2 : ∀ j, (swt tbl2 j).name = (swt ctx.switch_table j).name :=
    fun j => (structOf_parts (c2 j)).1
  have hlev2 : ∀ j, (swt tbl2 j).level = (swt ctx.switch_table j).level :=
    fun j => (structOf_parts (c2 j)).2.1
  have hpar2 : ∀ j, (swt tbl2 j).parent = (swt ctx.switch_table j).parent :=
    fun j => (structOf_parts (c2 j)).2.2.1
  have hsi2 : ∀ j, (swt tbl2 j).switch_index =
      (swt ctx.switch_table j).switch_index :=
    fun j => (structOf_parts (c2 j)).2.2.2.1
  have hsd2 : ∀ j, (swt tbl2 j).switch_desc_index =
      (swt ctx.switch_table j).switch_desc_index :=
    fun j => (structOf_parts (c2 j)).2.2.2.2.1
  have hchain2 : ∀ (A : Finset Nat) (f sw : Nat),
      anc_chain tbl2 A f sw = anc_chain ctx.switch_table A f sw :=
    fun A f sw => anc_chain_congr ctx.switch_table tbl2 hpar2 A f sw
  have hTleaf : ∀ t, T = some t → (swt ctx.switch_table t).level = 0 :=
    fun t ht => (hT t ht).2
  unfold Invariants inv_indices inv_parent_child inv_strict inv_level_le
    inv_root inv_desc inv_union inv_one_leaf inv_levels inv_strings
    inv_leaf_children tree_context.switch_count
  dsimp only
  rw [c1]
  refine ⟨?_, ?_, ?_, ?_, ?_, ?_, ?_, ?_, ?_, ?_, ?_⟩
  · -- index sanity
    intro i hi
    rw [hpar2 i, hsi2 i, hsd2 i]
    exact hIdx i hi
  · -- parent/child consistency
    intro i hi c hc
    rw [hsi2 i, hpar2 c]
    exact hPC i hi c hc
  · -- strictly increasing levels
    intro i hi
    rw [hpar2 i]
    intro p hp
    rw [hlev2 i, hlev2 p]
    exact hSt i hi p hp
  · -- levels bounded
    intro i hi
    rw [hlev2 i]
    exact hLle i hi
  · -- every chain reaches a root
    intro i hi
    rw [chain_completeB_congr ctx.switch_table tbl2 hpar2 _ i]
    exact hRoot i hi
  · -- descendants exact
    intro i hi j hj
    rw [hsd2 i, hchain2 ∅ _ j]
    exact hDesc i hi j hj
  · -- non-leaf bitmap = union of children
    intro i hi hne
    have hlvi : (swt ctx.switch_table i).level ≠ 0 := by
      rw [← hlev2 i]
      exact hne
    refine Finset.ext (fun y => ?_)
    rw [foldr_union_mem]
    constructor
    · intro hy
      by_cases hyX : y = X
      · subst hyX
        have hsi := (c3 i).mp hy
        cases hTc : T with
        | none =>
          rw [hTc] at hsi
          simp [opt_chain] at hsi
        | some t =>
          rw [hTc] at hsi
          simp only [opt_chain] at hsi
          obtain ⟨htn, htlv⟩ := hT t hTc
          have hit : i ≠ t := fun he => hlvi (he ▸ htlv)
          obtain ⟨c, hcch, hcp⟩ := anc_chain_pred ctx.switch_table
            (ctx.switch_levels + 1) t i hsi hit
          have hcn : c < ctx.switch_count := anc_chain_mem_lt
            ctx.switch_table hidx ∅ (ctx.switch_levels + 1) t htn c hcch
          refine ⟨(swt tbl2 c).node_bitmap, ?_, ?_⟩
          · rw [hsi2 i]
            exact List.mem_map_of_mem _ ((hPC i hi c hcn).mpr hcp)
          · rw [c3 c, hTc]
            simp only [opt_chain]
            exact hcch
      · rw [c4 y hyX i, hUn i hi hlvi, foldr_union_mem] at hy
        obtain ⟨f, hf, hyf⟩ := hy
        rw [List.mem_map] at hf
        obtain ⟨c, hc, rfl⟩ := hf
        refine ⟨(swt tbl2 c).node_bitmap, ?_, ?_⟩
        · rw [hsi2 i]
          exact List.mem_map_of_mem _ hc
        · rw [c4 y hyX c]
          exact hyf
    · rintro ⟨f, hf, hyf⟩
      rw [List.mem_map] at hf
      obtain ⟨c, hc, rfl⟩ := hf
      rw [hsi2 i] at hc
      have hcn : c < ctx.switch_count := (hIdx i hi).2.1 c hc
      have hcp : (swt ctx.switch_table c).parent = some i :=
        (hPC i hi c hcn).mp hc
      by_cases hyX : y = X
      · subst hyX
        have hcc := (c3 c).mp hyf
        cases hTc : T with
        | none =>
          rw [hTc] at hcc
          simp [opt_chain] at hcc
        | some t =>
          rw [hTc] at hcc
          simp only [opt_chain] at hcc
          rw [c3 i, hTc]
          simp only [opt_chain]
          exact anc_chain_closed ctx.switch_table hS ctx.switch_levels hB
            (ctx.switch_levels + 1) t (by omega) c hcc i hcp
      · rw [c4 y hyX c] at hyf
        rw [c4 y hyX i, hUn i hi hlvi, foldr_union_mem]
        exact ⟨_, List.mem_map_of_mem _ hc, hyf⟩
  · -- leaf bitmaps pairwise disjoint
    intro i hi j hj h
    obtain ⟨hij, hil, hjl⟩ := h
    rw [hlev2 i] at hil
    rw [hlev2 j] at hjl
    refine Finset.eq_empty_iff_forall_not_mem.mpr (fun y hy => ?_)
    obtain ⟨hyi, hyj⟩ := Finset.mem_inter.mp hy
    by_cases hyX : y = X
    · subst hyX
      have h1 := (leaf_mem_opt_chain ctx.switch_table hS ctx.switch_levels T
        hTleaf i hil).mp ((c3 i).mp hyi)
      have h2 := (leaf_mem_opt_chain ctx.switch_table hS ctx.switch_levels T
        hTleaf j hjl).mp ((c3 j).mp hyj)
      rw [h1] at h2
      injection h2 with h2e
      exact hij h2e
    · rw [c4 y hyX i] at hyi
      rw [c4 y hyX j] at hyj
      have := hOne i hi j hj ⟨hij, hil, hjl⟩
      have hmem : y ∈ (swt ctx.switch_table i).node_bitmap ∩
          (swt ctx.switch_table j).node_bitmap :=
        Finset.mem_inter.mpr ⟨hyi, hyj⟩
      rw [this] at hmem
      exact Finset.not_mem_empty y hmem
  · -- switch_levels is the max level
    rw [hLev]
    exact foldl_max_level_congr ctx.switch_table tbl2 c1.symm
      (fun j => (hlev2 j).symm) 0
  · -- strings canonical
    intro i hi
    refine ⟨(c6 i).1, ?_⟩
    rw [hsi2 i,
      switch_names_string_congr ctx.switch_table tbl2 hname2]
    exact (c6 i).2
  · -- children empty exactly at leaves
    intro i hi
    rw [hlev2 i, hsi2 i]
    exact hLC i hi

/-- C3: a successful mutator call — remove (no unit path) or add with a
unit path resolving (without creating switches) to a leaf — preserves the
§3 invariants; in particular every non-leaf switch's bitmap is again the
union of its children's (component `inv_union` of `Invariants`). -/
theorem C3_mutator_invariants (ctx : tree_context) (hinv : Invariants ctx)
    (X : Nat) (unit : Option String)
    (hcall : unit = none ∨ ∃ u t, unit = some u ∧
      walk_unit_path (strtok_colon u) none ctx = some (ctx, some t) ∧
      t < ctx.switch_count ∧ (swt ctx.switch_table t).level = 0) :
    (topology_p_add_rm_node X unit ctx).1 = true ∧
    Invariants (topology_p_add_rm_node X unit ctx).2 := by
  rcases hcall with hu | ⟨u, t, huu, hwalk, htn, htlv⟩
  · subst hu
    rw [add_rm_node_remove_eq]
    obtain ⟨c1, c2, c3, c4, c6⟩ := add_rm_loop_range_char ctx hinv X none
      (find_node_leaf ctx X)
      (fun t2 ht2 => Option.noConfusion ht2)
      (find_node_leaf_found ctx X) (find_node_leaf_none ctx X)
      _ _ rfl
    exact ⟨rfl, invariants_of_char ctx hinv X none
      (fun t2 ht2 => Option.noConfusion ht2) _ c1 c2 c3 c4 c6⟩
  · subst huu
    rw [add_rm_node_success_add X u ctx t hwalk htlv]
    have hTt : ∀ t2, (some t : Option Nat) = some t2 →
        t2 < ctx.switch_count ∧ (swt ctx.switch_table t2).level = 0 := by
      intro t2 ht2
      injection ht2 with h
      subst h
      exact ⟨htn, htlv⟩
    obtain ⟨c1, c2, c3, c4, c6⟩ := add_rm_loop_range_char ctx hinv X
      (some t) (find_node_leaf ctx X) hTt
      (find_node_leaf_found ctx X) (find_node_leaf_none ctx X)
      _ _ rfl
    exact ⟨rfl, invariants_of_char ctx hinv X (some t) hTt _ c1 c2 c3 c4 c6⟩

theorem C3_witness :
    (topology_p_add_rm_node 4 (some ("spine0:leaf1")) demoCtx).1 = true ∧
    Invariants (topology_p_add_rm_node 4 (some ("spine0:leaf1")) demoCtx).2 :=
  C3_mutator_invariants demoCtx (by decide) 4 (some ("spine0:leaf1"))
    (Or.inr ⟨("spine0:leaf1"), 1, rfl, by rfl, by decide, by decide⟩)

theorem switchRecord_ext {r s : SwitchRecord}
    (h1 : r.name = s.name) (h2 : r.level = s.level) (h3 : r.parent = s.parent)
    (h4 : r.switch_index = s.switch_index)
    (h5 : r.switch_desc_index = s.switch_desc_index)
    (h6 : r.node_bitmap = s.node_bitmap) (h7 : r.nodes = s.nodes)
    (h8 : r.switches = s.switches) (h9 : r.link_speed = s.link_speed) :
    r = s := by
  cases r
  cases s
  simp only at h1 h2 h3 h4 h5 h6 h7 h8 h9
  subst h1 h2 h3 h4 h5 h6 h7 h8 h9
  rfl

/-- C4 (amended): add-then-remove restores the forest bit-for-bit whenever
the node is attached to no leaf at the start; for an attached node the
remove deletes its original membership instead of restoring it, so the
unconditional claim fails (see the counterexample). -/
theorem C4_add_remove_roundtrip (ctx : tree_context) (hinv : Invariants ctx)
    (X t : Nat) (u : String)
    (hwalk : walk_unit_path (strtok_colon u) none ctx = some (ctx, some t))
    (htn : t < ctx.switch_count)
    (htlv : (swt ctx.switch_table t).level = 0)
    (hfree : ∀ i, (swt ctx.switch_table i).level = 0 →
      X ∉ (swt ctx.switch_table i).node_bitmap) :
    (topology_p_add_rm_node X none
      (topology_p_add_rm_node X (some u) ctx).2).2 = ctx := by
  have hS := strictW_of_invariants ctx hinv
  have hstr0 : ∀ s, (swt ctx.switch_table s).nodes =
      bitmap2node_name ctx.node_names (swt ctx.switch_table s).node_bitmap ∧
      (swt ctx.switch_table s).switches =
        switch_names_string ctx.switch_table
          (swt ctx.switch_table s).switch_index := by
    intro s
    by_cases hsn : s < ctx.switch_count
    · exact hinv.2.2.2.2.2.2.2.2.2.1 s hsn
    · rw [swt_oob _ _ (Nat.le_of_not_lt hsn)]
      exact ⟨(render_empty ctx.node_names).symm,
        (sns_nil ctx.switch_table).symm⟩
  have hTt : ∀ t2, (some t : Option Nat) = some t2 →
      t2 < ctx.switch_count ∧ (swt ctx.switch_table t2).level = 0 := by
    intro t2 ht2
    injection ht2 with h
    subst h
    exact ⟨htn, htlv⟩
  have hbit0 := init_bit_char ctx hinv X none
    (fun l hl => Option.noConfusion hl) (fun _ => hfree)
  obtain ⟨d1, d2, d3, d4, d5⟩ := add_rm_loop_range_char ctx hinv X (some t)
    none hTt (fun l hl => Option.noConfusion hl) (fun _ => hfree) _ _ rfl
  have heq1 := add_rm_node_success_add X u ctx t hwalk htlv
  rw [heq1]
  have hinv1 := invariants_of_char ctx hinv X (some t) hTt _ d1 d2 d3 d4 d5
  rw [add_rm_node_remove_eq]
  -- the state after the add, as a context
  have hfound1 : ∀ l, (some t : Option Nat) = some l →
      l < ({ ctx with switch_table :=
          (add_rm_loop_go X (some t) ctx.node_names (ctx.switch_levels + 1)
            (List.range ctx.switch_table.length) ctx.switch_table
            ∅).1 } : tree_context).switch_count ∧
      (swt (add_rm_loop_go X (some t) ctx.node_names (ctx.switch_levels + 1)
          (List.range ctx.switch_table.length) ctx.switch_table ∅).1
        l).level = 0 ∧
      X ∈ (swt (add_rm_loop_go X (some t) ctx.node_names
          (ctx.switch_levels + 1) (List.range ctx.switch_table.length)
          ctx.switch_table ∅).1 l).node_bitmap := by
    intro l hl
    injection hl with h
    subst h
    refine ⟨?_, ?_, ?_⟩
    · show t < (add_rm_loop_go X (some t) ctx.node_names _ _ _ ∅).1.length
      rw [d1]
      exact htn
    · rw [(structOf_parts (d2 t)).2.1]
      exact htlv
    · rw [d3 t]
      exact anc_chain_self ctx.switch_table ctx.switch_levels t
  obtain ⟨e1, e2, e3, e4, e5⟩ := add_rm_loop_range_char
    { ctx with switch_table :=
        (add_rm_loop_go X (some t) ctx.node_names (ctx.switch_levels + 1)
          (List.range ctx.switch_table.length) ctx.switch_table ∅).1 }
    hinv1 X none (some t)
    (fun t2 ht2 => Option.noConfusion ht2)
    hfound1
    (fun hl => Option.noConfusion hl)
    _ _ rfl
  -- pointwise equality of the final table with the original one
  have hbm : ∀ s,
      (swt (add_rm_loop_go X none ctx.node_names (ctx.switch_levels + 1)
          (List.range (add_rm_loop_go X (some t) ctx.node_names
            (ctx.switch_levels + 1) (List.range ctx.switch_table.length)
            ctx.switch_table ∅).1.length)
          (add_rm_loop_go X (some t) ctx.node_names (ctx.switch_levels + 1)
            (List.range ctx.switch_table.length) ctx.switch_table ∅).1
          ∅).1 s).node_bitmap =
      (swt ctx.switch_table s).node_bitmap := by
    intro s
    refine Finset.ext (fun y => ?_)
    by_cases hy : y = X
    · subst hy
      constructor
      · intro h
        have := (e3 s).mp h
        simp [opt_chain] at this
      · intro h
        have := (hbit0 s).mp h
        simp [opt_chain] at this
    · rw [e4 y hy s, d4 y hy s]
  have hsw : ∀ s,
      swt (add_rm_loop_go X none ctx.node_names (ctx.switch_levels + 1)
          (List.range (add_rm_loop_go X (some t) ctx.node_names
            (ctx.switch_levels + 1) (List.range ctx.switch_table.length)
            ctx.switch_table ∅).1.length)
          (add_rm_loop_go X (some t) ctx.node_names (ctx.switch_levels + 1)
            (List.range ctx.switch_table.length) ctx.switch_table ∅).1
          ∅).1 s =
      swt ctx.switch_table s := by
    intro s
    have hst := (e2 s).trans (d2 s)
    obtain ⟨p1, p2, p3, p4, p5, p6⟩ := structOf_parts hst
    refine switchRecord_ext p1 p2 p3 p4 p5 (hbm s) ?_ ?_ p6
    · rw [(e5 s).1, hbm s]
      exact ((hstr0 s).1).symm
    · rw [(e5 s).2]
      rw [(structOf_parts (d2 s)).2.2.2.1]
      rw [switch_names_string_congr ctx.switch_table _
        (fun k => (structOf_parts (d2 k)).1)]
      exact ((hstr0 s).2).symm
  have hlist : (add_rm_loop_go X none ctx.node_names (ctx.switch_levels + 1)
        (List.range (add_rm_loop_go X (some t) ctx.node_names
          (ctx.switch_levels + 1) (List.range ctx.switch_table.length)
          ctx.switch_table ∅).1.length)
        (add_rm_loop_go X (some t) ctx.node_names (ctx.switch_levels + 1)
          (List.range ctx.switch_table.length) ctx.switch_table ∅).1
        ∅).1 = ctx.switch_table := by
    apply List.ext_getElem (e1.trans d1)
    intro i h2 h0
    have h := hsw i
    unfold swt at h
    rwa [List.getD_eq_getElem _ _ h2, List.getD_eq_getElem _ _ h0] at h
  rw [hlist]

/-- C4 counterexample: node 0 starts attached to leaf0 in the demo forest;
`add(0, "spine0:leaf1")` succeeds and then `remove(0)` succeeds, but the
resulting forest is not the original one — leaf0's bitmap has lost node 0
(the remove deletes the membership instead of restoring it). -/
theorem C4_counterexample :
    Invariants demoCtx ∧
    (topology_p_add_rm_node 0 (some ("spine0:leaf1")) demoCtx).1 = true ∧
    (topology_p_add_rm_node 0 none
      (topology_p_add_rm_node 0 (some ("spine0:leaf1")) demoCtx).2).1 =
      true ∧
    (swt (topology_p_add_rm_node 0 none
        (topology_p_add_rm_node 0 (some ("spine0:leaf1"))
          demoCtx).2).2.switch_table 0).node_bitmap ≠
      (swt demoCtx.switch_table 0).node_bitmap := by
  decide

theorem C4_witness :
    (topology_p_add_rm_node 4 none
      (topology_p_add_rm_node 4 (some ("spine0:leaf1")) demoCtx).2).2 =
      demoCtx :=
  C4_add_remove_roundtrip demoCtx (by decide) 4 1 ("spine0:leaf1")
    (by rfl) (by decide) (by decide)
    (fun i hlv => by
      by_cases hi : i < demoCtx.switch_table.length
      · have hi3 : i < 3 := hi
        interval_cases i <;> decide
      · rw [swt_oob _ _ (Nat.le_of_not_lt hi)]
        simp [dfltSwitch])
